import Mathlib

/-!
Verification development for the compounding balance and ledger engine of the
`my-fastapi-record-tools` backend (`src/backend/crud.py` and
`src/backend/scripts/audit_consistency.py`).

Modelling conventions:
* Money values are modelled as exact rationals (`ℚ`).  Python's `round(x, 2)`
  (round-half-to-even at two decimals) is modelled by `round2`.
* Timestamps are modelled as integers counting days; the Python timezone
  normalisation (`ensure_myt_datetime`) preserves the instant and is therefore
  the identity in this model.  `COMPOUND_INTERVAL = timedelta(days=30)` becomes
  the integer `30`.
* Database rows are lists; autoincrement primary keys are explicit `ℕ` fields.
* `HTTPException` aborts (which happen before any mutation in the modelled
  operations) are modelled by returning the state unchanged, or by
  `Except.error` where a claim needs the accept/reject decision.
-/

namespace RecordTools

/-- `1e-9`, the float tolerance used throughout `crud.py`. -/
def eps : ℚ := 1 / 1000000000

/-- Round-half-to-even to an integer, the rounding mode of Python's `round`. -/
def rhe (x : ℚ) : ℤ :=
  if x - (⌊x⌋ : ℚ) < 1 / 2 then ⌊x⌋
  else if 1 / 2 < x - (⌊x⌋ : ℚ) then ⌊x⌋ + 1
  else if ⌊x⌋ % 2 = 0 then ⌊x⌋ else ⌊x⌋ + 1

/-- Python's `round(x, 2)`: round-half-to-even at two decimal places.
Models `_round_amount` from `crud.py` (the `None` coercion is dropped because
all modelled amounts are present). -/
def round2 (x : ℚ) : ℚ := (rhe (100 * x) : ℚ) / 100

/-- A value with at most two decimal places: an integer number of cents. -/
def Is2dp (x : ℚ) : Prop := ∃ z : ℤ, x = (z : ℚ) / 100

/-! ## Data model

Rows of the tables touched by the engine, restricted to one customer (the
engine never makes two customers interact except through the shared bank
ledger, which is modelled as part of the same state). -/

/-- A `CompoundBalanceEvent` row (`models.py`).  The free-text description and
JSON metadata carry no invariants and are omitted. -/
structure BEvent where
  id : ℕ
  etype : String
  time : ℤ
  change : ℚ
  after : ℚ
deriving DecidableEq, Repr

/-- A `BankTransaction` row (`models.py`), restricted to the fields the claims
mention. -/
structure BankTx where
  ttype : String
  amount : ℚ
  after : ℚ
deriving DecidableEq, Repr

/-- A `Repayment` row: primary key, optional loan reference, stored amount
(kept exactly as passed in by `create_repayment`, sign included). -/
structure RepRow where
  id : ℕ
  loanId : Option ℕ
  amount : ℚ
deriving DecidableEq, Repr

/-- The customer balance state: `projected_balance`, `last_principal`,
`next_compound_at`. -/
@[ext]
structure Cust where
  pb : ℚ
  lp : ℚ
  nca : Option ℤ
deriving DecidableEq, Repr

/-- Full engine state: one customer, its loans `(id, loan_amount)` and
repayments, the balance-event table with its autoincrement counter, and the
bank transaction ledger. -/
@[ext]
structure St where
  cust : Cust
  events : List BEvent
  nextEid : ℕ
  loans : List (ℕ × ℚ)
  reps : List RepRow
  bank : List BankTx
deriving DecidableEq, Repr

/-- The freshly created customer (`models.py` defaults). -/
def init : St := ⟨⟨0, 0, none⟩, [], 0, [], [], []⟩

/-! ## Bank transaction ledger (`record_bank_transaction`, `get_bank_balance`) -/

/-- `get_bank_balance`: `balance_after` of the row with the largest primary
key, rounded, or `0` for an empty ledger.  Rows are kept in insertion order so
the newest row is the last one. -/
def bankBalance (l : List BankTx) : ℚ :=
  match l.getLast? with
  | none => 0
  | some e => round2 e.after

/-- `record_bank_transaction`: skip amounts that round to (within `1e-9` of)
zero, otherwise append a row carrying the running balance. -/
def ledgerAppend (l : List BankTx) (ttype : String) (amount : ℚ) : List BankTx :=
  let a := round2 amount
  if |a| ≤ eps then l
  else l ++ [⟨ttype, a, round2 (bankBalance l + a)⟩]

/-- State-level wrapper for `record_bank_transaction`. -/
def recordBank (s : St) (ttype : String) (amount : ℚ) : St :=
  { s with bank := ledgerAppend s.bank ttype amount }

/-! ## Balance event ledger (`_record_balance_event`) -/

/-- `_record_balance_event`: no-op for deltas within `1e-9` of zero, otherwise
append an event whose `balance_after` is the customer's already-updated
projected balance, clamped at zero and rounded.  (The `customer.id` guard is
dropped: the modelled customer is persisted.) -/
def recordEvent (s : St) (etype : String) (time : ℤ) (change : ℚ) : St :=
  if |change| ≤ eps then s
  else
    { s with
      events := s.events ++
        [⟨s.nextEid, etype, time, round2 change, round2 (max s.cust.pb 0)⟩],
      nextEid := s.nextEid + 1 }

/-! ## Balance compounding calculator
(`_apply_compound_growth`, `_adjust_projected_balance`) -/

/-- `_initial_compounded_amount`: clamp the principal at zero, apply the fixed
`COMPOUND_INTEREST_RATE = 0.20` multiplier, round to two decimals. -/
def initialCompounded (loanAmount : ℚ) : ℚ :=
  round2 (max loanAmount 0 * (6 / 5))

/-- One iteration of the `while next_compound_at <= now` loop of
`_apply_compound_growth`, acting on the accumulated `(events, next id,
projected)` at boundary `tb`: multiply the balance by `1 + 0.20`, round, and
emit a `compound_growth` event at the boundary time when the increment
exceeds `1e-9`, recording the just-updated balance. -/
def growthStep (a : List BEvent × ℕ × ℚ) (tb : ℤ) : List BEvent × ℕ × ℚ :=
  if eps < round2 (a.2.2 * (6 / 5)) - a.2.2 then
    (a.1 ++
      [⟨a.2.1, "compound_growth", tb, round2 (round2 (a.2.2 * (6 / 5)) - a.2.2),
        round2 (max (round2 (a.2.2 * (6 / 5))) 0)⟩],
      a.2.1 + 1, round2 (a.2.2 * (6 / 5)))
  else (a.1, a.2.1, round2 (a.2.2 * (6 / 5)))

/-- The number of iterations the loop performs when started at boundary `t`:
the boundaries `t, t + 30, t + 60, …` that are `≤ now`. -/
def growthCount (t now : ℤ) : ℕ :=
  if t ≤ now then (now - t).toNat / 30 + 1 else 0

/-- The boundary times the loop visits: `t0 + 30·i` for `i < k`. -/
def growthBounds (t0 : ℤ) (k : ℕ) : List ℤ :=
  (List.range k).map fun i => t0 + 30 * (i : ℤ)

/-- Folding the loop body over the first `k` boundaries. -/
def growthFold (a : List BEvent × ℕ × ℚ) (t0 : ℤ) (k : ℕ) :
    List BEvent × ℕ × ℚ :=
  (growthBounds t0 k).foldl growthStep a

/-- `_apply_compound_growth(customer, now, session=session)`.  Timezone
normalisation of `next_compound_at` is the identity in this model.  In the
nonpositive branch the balance is forced to `0` and the schedule cleared; in
the positive branch a missing schedule starts one interval after `now`, and
the `while` loop — represented as the fold of `growthStep` over the boundary
sequence it visits — compounds through every boundary `≤ now` and leaves
`next_compound_at` on the first boundary after `now`. -/
def applyCompoundGrowthS (s : St) (now : ℤ) : St :=
  if max s.cust.pb 0 ≤ 0 then
    { s with cust := { s.cust with pb := 0, nca := none } }
  else
    let t0 := s.cust.nca.getD (now + 30)
    let k := growthCount t0 now
    let r := growthFold (s.events, s.nextEid, max s.cust.pb 0) t0 k
    { s with
      events := r.1,
      nextEid := r.2.1,
      cust := { s.cust with pb := r.2.2, nca := some (t0 + 30 * (k : ℤ)) } }

/-- `_adjust_projected_balance(customer, delta, now, session=session)`:
no-op within tolerance; otherwise bring the balance current, add the delta,
clamp at zero, round, write back only if the result moved by more than `1e-9`,
and null or re-establish `next_compound_at`. -/
def applyDeltaS (s : St) (δ : ℚ) (now : ℤ) : St :=
  if |δ| ≤ eps then s
  else
    let s1 := applyCompoundGrowthS s now
    let p1 := round2 (max (max s1.cust.pb 0 + δ) 0)
    let pb2 := if eps < |p1 - s1.cust.pb| then p1 else s1.cust.pb
    if p1 ≤ 0 then { s1 with cust := { s1.cust with pb := pb2, nca := none } }
    else
      { s1 with
        cust :=
          { s1.cust with pb := pb2, nca := some (s1.cust.nca.getD (now + 30)) } }

/-! ## Loan balance guard
(`_loan_remaining_compounded_balance`, `_ensure_repayment_within_loan_balance`) -/

/-- `_loan_remaining_compounded_balance`: compounded ceiling of the loan minus
the absolute amounts of its repayments (optionally excluding one row), rounded
and floored at zero. -/
def loanRemaining (reps : List RepRow) (loanAmount : ℚ) (loanId : ℕ)
    (excl : Option ℕ) : ℚ :=
  let paid :=
    ((reps.filter fun r =>
        decide (r.loanId = some loanId) && !decide (excl = some r.id)).map
      fun r => |r.amount|).sum
  max (round2 (initialCompounded loanAmount - paid)) 0

/-- `_ensure_repayment_within_loan_balance` reduced to its decision: `true`
means the guard raises `InsufficientLoanBalance` (HTTP 400).  The function
reads but never writes state. -/
def guardRejects (allowed amount : ℚ) : Bool :=
  let na := max (round2 |amount|) 0
  decide ((allowed ≤ 0 ∧ 0 < na) ∨ eps < na - allowed)

/-- `math.isclose(a, b, abs_tol=1e-9)` with its default `rel_tol=1e-9`, as
used by `update_repayment` to decide whether to re-run the guard. -/
def iscloseQ (a b : ℚ) : Bool :=
  decide (|a - b| ≤ max (eps * max |a| |b|) eps)

/-! ## Business operations (`crud.py`) -/

/-- `create_loan`: compounded addition to the projected balance, update
`last_principal`, persist the loan, record the `loan_disbursement` event at
the loan date and the cash outflow of the raw principal.  In this model the
loan date equals the operation time `now` (no backdating). -/
def opCreateLoan (s : St) (lid : ℕ) (amount : ℚ) (now : ℤ) : St :=
  let addition := initialCompounded amount
  let s1 := applyDeltaS s addition now
  let s2 :=
    { s1 with
      cust := { s1.cust with lp := s1.cust.lp + addition },
      loans := s1.loans ++ [(lid, amount)] }
  let s3 := recordEvent s2 "loan_disbursement" now addition
  recordBank s3 "loan_disbursement" (-(round2 amount))

/-- The mutating part of `create_repayment`, after the guard has passed:
deduct `abs(amount)` inside the compounding timeline (the code calls
`_apply_compound_growth` explicitly and `_adjust_projected_balance` calls it
again), update `last_principal`, store the repayment row with its raw signed
amount, record the `repayment` event and the cash inflow. -/
def createRepaymentBody (s : St) (rid : ℕ) (lid : Option ℕ) (amount : ℚ)
    (now : ℤ) : St :=
  let deduction := -|amount|
  let s1 := applyCompoundGrowthS s now
  let s2 := applyDeltaS s1 deduction now
  let s3 :=
    { s2 with
      cust := { s2.cust with lp := s2.cust.lp + deduction },
      reps := s2.reps ++ [⟨rid, lid, amount⟩] }
  let s4 := recordEvent s3 "repayment" now deduction
  recordBank s4 "repayment_receipt" (round2 |amount|)

/-- `create_repayment`: a missing loan is a 404, a guard rejection a 400;
both abort before any write. -/
def opCreateRepayment (s : St) (rid : ℕ) (lid : Option ℕ) (amount : ℚ)
    (now : ℤ) : Except Unit St :=
  match lid with
  | some l =>
    match s.loans.find? (fun r => decide (r.1 = l)) with
    | none => .error ()
    | some lr =>
      if guardRejects (loanRemaining s.reps lr.2 l none) amount then .error ()
      else .ok (createRepaymentBody s rid lid amount now)
  | none => .ok (createRepaymentBody s rid lid amount now)

/-- The `loan_amount` branch of `update_loan`: apply the difference of the
compounded effects to the balance with a `loan_adjustment` event, store the
new amount, and record the raw cash difference in the bank ledger. -/
def opUpdateLoan (s : St) (lid : ℕ) (newAmount : ℚ) (now : ℤ) : St :=
  match s.loans.find? (fun r => decide (r.1 = lid)) with
  | none => s
  | some lr =>
    let δ := initialCompounded newAmount - initialCompounded lr.2
    let s1 :=
      if eps < |δ| then
        let sa := applyDeltaS s δ now
        let sb := { sa with cust := { sa.cust with lp := sa.cust.lp + δ } }
        recordEvent sb "loan_adjustment" now δ
      else s
    let s2 :=
      { s1 with
        loans := s1.loans.map fun r => if r.1 = lid then (r.1, newAmount) else r }
    let cashDelta := newAmount - lr.2
    if eps < |cashDelta| then
      recordBank s2 "loan_adjustment" (-(round2 cashDelta))
    else s2

/-- `delete_loan`: reverse the compounded effect with a `loan_writeoff` event,
record the cash reversal, and delete the row (repayments keep their dangling
`loan_id`, as in the source). -/
def opDeleteLoan (s : St) (lid : ℕ) (now : ℤ) : St :=
  match s.loans.find? (fun r => decide (r.1 = lid)) with
  | none => s
  | some lr =>
    let deduction := -(initialCompounded lr.2)
    let s1 := applyDeltaS s deduction now
    let s2 := { s1 with cust := { s1.cust with lp := s1.cust.lp + deduction } }
    let s3 := recordEvent s2 "loan_writeoff" now deduction
    let s4 := recordBank s3 "loan_reversal" (round2 |lr.2|)
    { s4 with loans := s4.loans.filter fun r => !decide (r.1 = lid) }

/-- The mutating part of `update_repayment`'s `repayment_amount` branch. -/
def updateRepaymentBody (s : St) (rep : RepRow) (newAbs : ℚ) (now : ℤ) : St :=
  let δ := |rep.amount| - newAbs
  let s1 :=
    if eps < |δ| then
      let sa := applyDeltaS s δ now
      let sb := { sa with cust := { sa.cust with lp := sa.cust.lp + δ } }
      recordEvent sb "repayment_adjustment" now δ
    else s
  let s2 :=
    { s1 with
      reps := s1.reps.map fun r =>
        if r.id = rep.id then ⟨r.id, r.loanId, newAbs⟩ else r }
  let cashDelta := newAbs - rep.amount
  if eps < |cashDelta| then
    recordBank s2 "repayment_adjustment" (round2 cashDelta)
  else s2

/-- `update_repayment` restricted to its `repayment_amount` field: take the
absolute value of the requested amount, re-run the guard (excluding the edited
row) unless the amount is `math.isclose` to the old one, then apply the
difference. -/
def opUpdateRepayment (s : St) (rid : ℕ) (newAmountRaw : ℚ) (now : ℤ) :
    Except Unit St :=
  match s.reps.find? (fun r => decide (r.id = rid)) with
  | none => .error ()
  | some rep =>
    let newAbs := |newAmountRaw|
    match rep.loanId with
    | some l =>
      match s.loans.find? (fun r => decide (r.1 = l)) with
      | none => .error ()
      | some lr =>
        if !iscloseQ newAbs |rep.amount| &&
            guardRejects (loanRemaining s.reps lr.2 l (some rid)) newAbs then
          .error ()
        else .ok (updateRepaymentBody s rep newAbs now)
    | none => .ok (updateRepaymentBody s rep newAbs now)

/-- `delete_repayment`: credit `abs(amount)` back with a `repayment_reversal`
event, record the cash outflow, delete the row. -/
def opDeleteRepayment (s : St) (rid : ℕ) (now : ℤ) : St :=
  match s.reps.find? (fun r => decide (r.id = rid)) with
  | none => s
  | some rep =>
    let addition := |rep.amount|
    let s1 := applyDeltaS s addition now
    let s2 := { s1 with cust := { s1.cust with lp := s1.cust.lp + addition } }
    let s3 := recordEvent s2 "repayment_reversal" now addition
    let s4 := recordBank s3 "repayment_reversal" (-(round2 |rep.amount|))
    { s4 with reps := s4.reps.filter fun r => !decide (r.id = rid) }

/-- `update_customer_balance`: either set the balance to a target
(`manual_override`) or apply a signed adjustment (`manual_adjust`), both
requiring a referenced loan with positive remaining balance; afterwards an
explicit `next_compound_at` payload value is written directly to the
customer.  Validation failures abort before any write. -/
def opUpdateBalance (s : St) (target : Option ℚ) (adj : ℚ)
    (nextOv : Option ℤ) (loanRef : Option ℕ) (now : ℤ) : St :=
  let requiresLoan := target.isSome || decide (eps < |adj|)
  let body : St :=
    let s1 :=
      match target with
      | some tv =>
        let δ := max tv 0 - s.cust.pb
        if eps < |δ| then
          recordEvent (applyDeltaS s δ now) "manual_override" now δ
        else s
      | none =>
        if eps < |adj| then
          recordEvent (applyDeltaS s adj now) "manual_adjust" now adj
        else s
    match nextOv with
    | some t => { s1 with cust := { s1.cust with nca := some t } }
    | none => s1
  match loanRef with
  | some l =>
    match s.loans.find? (fun r => decide (r.1 = l)) with
    | none => s
    | some lr =>
      if requiresLoan && decide (loanRemaining s.reps lr.2 l none ≤ 0) then s
      else body
  | none => if requiresLoan then s else body

/-! ## Operation traces -/

/-- One core operation, as listed by the invariants' claims. -/
inductive Op where
  | createLoan (lid : ℕ) (amount : ℚ)
  | updateLoan (lid : ℕ) (newAmount : ℚ)
  | deleteLoan (lid : ℕ)
  | createRepayment (rid : ℕ) (lid : Option ℕ) (amount : ℚ)
  | updateRepayment (rid : ℕ) (newAmount : ℚ)
  | deleteRepayment (rid : ℕ)
  | updateBalance (target : Option ℚ) (adj : ℚ) (nextOv : Option ℤ)
      (loanRef : Option ℕ)
  | advance
deriving DecidableEq, Repr

/-- Execute one operation at time `now`; aborted operations leave the state
unchanged (their exceptions are raised before any write). -/
def step (s : St) (now : ℤ) : Op → St
  | .createLoan lid a => opCreateLoan s lid a now
  | .updateLoan lid a => opUpdateLoan s lid a now
  | .deleteLoan lid => opDeleteLoan s lid now
  | .createRepayment rid lid a =>
    match opCreateRepayment s rid lid a now with
    | .error _ => s
    | .ok s' => s'
  | .updateRepayment rid a =>
    match opUpdateRepayment s rid a now with
    | .error _ => s
    | .ok s' => s'
  | .deleteRepayment rid => opDeleteRepayment s rid now
  | .updateBalance target adj nextOv loanRef =>
    opUpdateBalance s target adj nextOv loanRef now
  | .advance => applyCompoundGrowthS s now

/-- Run a timestamped operation sequence. -/
def runFrom (s : St) : List (ℤ × Op) → St
  | [] => s
  | (t, op) :: rest => runFrom (step s t op) rest

/-- The operation does not use `update_customer_balance`'s direct
`next_compound_at` override. -/
def opNoOverride : Op → Bool
  | .updateBalance _ _ nextOv _ => nextOv.isNone
  | _ => true

/-- Every operation in the trace leaves `next_compound_at` to the
calculator. -/
def traceNoOverride (tr : List (ℤ × Op)) : Bool :=
  tr.all fun p => opNoOverride p.2

/-- Well-formed trace for the timeline claims: operation times never decrease
(so loan/repayment dates — equal to the operation times in this model — are
never backdated) and `next_compound_at` is never overridden directly. -/
def traceWF : ℤ → List (ℤ × Op) → Bool
  | _, [] => true
  | n, (t, op) :: rest => decide (n ≤ t) && opNoOverride op && traceWF t rest

/-! ## Consistency auditor (`scripts/audit_consistency.py`) -/

/-- The `customer_balance` section of `run_audit` for one customer: the
`last_principal` drift warning and the negative `projected_balance` error,
with the categories and messages of the source.  `run_audit` clamps the
tolerance at zero on entry. -/
def auditCustomerBalanceIssues (lastPrincipal pb : ℚ) (loanAmounts : List ℚ)
    (repAmounts : List ℚ) (tolRaw : ℚ) : List (String × String × String) :=
  let tol := max tolRaw 0
  let effectiveLoanTotal :=
    (loanAmounts.map fun la => initialCompounded (max la 0)).sum
  let repaymentTotal := (repAmounts.map fun ra => max ra 0).sum
  let rawBalance := round2 (max (effectiveLoanTotal - repaymentTotal) 0)
  let lastP := round2 lastPrincipal
  let projected := round2 (max pb 0)
  (if tol < |lastP - rawBalance| then
    [("warning", "customer_balance", "last_principal deviates from recomputed balance")]
  else []) ++
  (if projected < -tol then
    [("error", "customer_balance", "projected_balance is negative")]
  else [])

/-! ## Observation and specification helpers -/

/-- `balance_after` of the last event, or a default for an empty timeline. -/
def afterLastD (d : ℚ) (l : List BEvent) : ℚ := (l.getLast?).elim d BEvent.after

/-- Generative chain property: every event was produced from the previous
balance by adding some raw delta, clamping at zero and rounding, with the
recorded `change_amount` the rounded delta. -/
def GenChainFrom : ℚ → List BEvent → Prop
  | _, [] => True
  | prev, e :: rest =>
    (∃ δ, e.change = round2 δ ∧ e.after = round2 (max (prev + δ) 0)) ∧
      GenChainFrom e.after rest

/-- Replay check with clamping allowed at every event: each `balance_after`
matches the previous balance plus the event's `change_amount`, floored at
zero, within `0.01`. -/
def chainClampedFromB (prev : ℚ) : List BEvent → Bool
  | [] => true
  | e :: rest =>
    decide (|e.after - max (prev + e.change) 0| ≤ 1 / 100) &&
      chainClampedFromB e.after rest

/-- Replay check as claimed: after the genesis event (clamped at zero), each
`balance_after` equals the previous one plus the event's `change_amount`
within `0.01`, with no further clamping. -/
def chainStrictRestB (prev : ℚ) : List BEvent → Bool
  | [] => true
  | e :: rest =>
    decide (|e.after - (prev + e.change)| ≤ 1 / 100) &&
      chainStrictRestB e.after rest

/-- The claimed replay property for a whole timeline. -/
def chainStrictB : List BEvent → Bool
  | [] => true
  | e :: rest =>
    decide (|e.after - max e.change 0| ≤ 1 / 100) && chainStrictRestB e.after rest

/-- The event list is ascending under the `(event_time, id)` sort key, so the
stored order is the timeline order. -/
def sortedKeysB : List BEvent → Bool
  | [] => true
  | [_] => true
  | a :: b :: rest =>
    decide (a.time < b.time ∨ (a.time = b.time ∧ a.id < b.id)) &&
      sortedKeysB (b :: rest)

/-- Modelled from the spec: the per-period balance sequence of claim C5 —
starting from `P`, each crossed 30-day boundary multiplies the balance by
`1 + 0.20` and rounds to two decimals. -/
def pbIter (P : ℚ) : ℕ → ℚ
  | 0 => P
  | k + 1 => round2 (pbIter P k * (6 / 5))

/-- Modelled from the spec: period `i` records an event iff its rounded
increment exceeds the internal `1e-9` tolerance. -/
def periodEmit (P : ℚ) (i : ℕ) : Bool :=
  decide (eps < pbIter P (i + 1) - pbIter P i)

/-- Modelled from the spec: how many of the first `k` periods record an
event. -/
def emitCount (P : ℚ) : ℕ → ℕ
  | 0 => 0
  | k + 1 => emitCount P k + (if periodEmit P k then 1 else 0)

/-- Modelled from the spec: the `compound_growth` events of the first `k`
crossed boundaries — one per period, at the boundary's time, with
`balance_after` the post-period balance and `change_amount` the rounded
increment, ids consecutive from `nid` — skipping periods whose increment is
within tolerance. -/
def periodEvents (nid : ℕ) (t : ℤ) (P : ℚ) : ℕ → List BEvent
  | 0 => []
  | k + 1 =>
    periodEvents nid t P k ++
      (if periodEmit P k then
        [⟨nid + emitCount P k, "compound_growth", t + 30 * (k : ℤ),
          round2 (pbIter P (k + 1) - pbIter P k), pbIter P (k + 1)⟩]
      else [])

/-- Reachability invariant tying the event timeline to the customer state.
`n` is the time of the last executed operation. -/
structure Good (s : St) (n : ℤ) : Prop where
  pb0 : 0 ≤ s.cust.pb
  pb2 : Is2dp s.cust.pb
  ncaIff : s.cust.nca = none ↔ s.cust.pb = 0
  ncaBound : ∀ t, s.cust.nca = some t → ∀ e ∈ s.events, e.time < t
  timesLe : ∀ e ∈ s.events, e.time ≤ n
  pairMono : s.events.Chain' fun a b => a.time ≤ b.time ∧ a.id < b.id
  idsLt : ∀ e ∈ s.events, e.id < s.nextEid
  lastPb : afterLastD 0 s.events = s.cust.pb
  chain : GenChainFrom 0 s.events

/-- The customer-level invariant of claim C2: the projected balance is a
nonnegative two-decimal value and the compounding schedule is absent exactly
when the balance is zero. -/
def Inv2 (c : Cust) : Prop :=
  0 ≤ c.pb ∧ Is2dp c.pb ∧ (c.nca = none ↔ c.pb = 0)

/-- The observables of `create_repayment` that claim C9 compares: the
resulting customer state, balance events, bank ledger and event counter (the
stored repayment row, which keeps the raw sign, is not among them). -/
def repObs : Except Unit St → Option (Cust × List BEvent × List BankTx × ℕ)
  | .error _ => none
  | .ok s => some (s.cust, s.events, s.bank, s.nextEid)

/-- Modelled from the spec's words (§4.4): `remainingBalance` as
`max(0, compounded(loan.amount) − sum(...))`, i.e. floored at zero but with no
rounding of the difference; used only to compare against the source's
`_loan_remaining_compounded_balance`. -/
def remainingSpec (reps : List RepRow) (loanAmount : ℚ) (loanId : ℕ)
    (excl : Option ℕ) : ℚ :=
  let paid :=
    ((reps.filter fun r =>
        decide (r.loanId = some loanId) && !decide (excl = some r.id)).map
      fun r => |r.amount|).sum
  max 0 (initialCompounded loanAmount - paid)

/-- Running-balance property of the bank ledger: each row's `balance_after`
equals the accumulated sum of amounts so far. -/
def chainBank : ℚ → List BankTx → Prop
  | _, [] => True
  | acc, e :: rest => e.after = acc + e.amount ∧ chainBank e.after rest

/-- Build a ledger by a sequence of `record_bank_transaction` calls. -/
def mkLedger (reqs : List (String × ℚ)) : List BankTx :=
  reqs.foldl (fun acc p => ledgerAppend acc p.1 p.2) []

/-- Invariant of the bank transaction ledger: running balances accumulate the
amounts, all persisted amounts are nonzero two-decimal values, and the cached
balance equals the total. -/
def BankInv (l : List BankTx) : Prop :=
  chainBank 0 l ∧
  (∀ e ∈ l, Is2dp e.amount ∧ e.amount ≠ 0 ∧ Is2dp e.after) ∧
  bankBalance l = (l.map BankTx.amount).sum

/-! ## Rounding lemmas -/

theorem rhe_intCast (z : ℤ) : rhe (z : ℚ) = z := by
  simp [rhe]

theorem rhe_ge_floor (x : ℚ) : ⌊x⌋ ≤ rhe x := by
  unfold rhe
  split
  · exact le_refl _
  · split
    · exact le_of_lt (lt_add_one _)
    · split
      · exact le_refl _
      · exact le_of_lt (lt_add_one _)

theorem rhe_le_floor_add_one (x : ℚ) : rhe x ≤ ⌊x⌋ + 1 := by
  unfold rhe
  split
  · exact le_of_lt (lt_add_one _)
  · split
    · exact le_refl _
    · split
      · exact le_of_lt (lt_add_one _)
      · exact le_refl _

theorem abs_rhe_sub (x : ℚ) : |(rhe x : ℚ) - x| ≤ 1 / 2 := by
  have hfl : (⌊x⌋ : ℚ) ≤ x := Int.floor_le x
  have hfu : x < (⌊x⌋ : ℚ) + 1 := Int.lt_floor_add_one x
  unfold rhe
  split
  · rename_i h
    rw [abs_sub_comm, abs_of_nonneg (by linarith)]
    linarith
  · rename_i h
    push_neg at h
    split
    · rename_i h2
      push_cast
      rw [abs_of_nonneg (by linarith)]
      linarith
    · rename_i h2
      push_neg at h2
      have heq : x - (⌊x⌋ : ℚ) = 1 / 2 := le_antisymm h2 h
      split
      · rw [abs_sub_comm, abs_of_nonneg (by linarith)]
        linarith
      · push_cast
        rw [abs_of_nonneg (by linarith)]
        linarith

theorem abs_round2_sub (x : ℚ) : |round2 x - x| ≤ 1 / 200 := by
  have h := abs_rhe_sub (100 * x)
  have : round2 x - x = ((rhe (100 * x) : ℚ) - 100 * x) / 100 := by
    unfold round2; ring
  rw [this, abs_div]
  rw [abs_of_nonneg (by norm_num : (0:ℚ) ≤ (100:ℚ))]
  linarith

theorem round2_is2dp (x : ℚ) : Is2dp (round2 x) := ⟨rhe (100 * x), rfl⟩

theorem round2_intCast_div (z : ℤ) : round2 ((z : ℚ) / 100) = (z : ℚ) / 100 := by
  unfold round2
  have : (100 : ℚ) * ((z : ℚ) / 100) = (z : ℚ) := by ring
  rw [this, rhe_intCast]

theorem round2_eq_self (h : Is2dp x) : round2 x = x := by
  obtain ⟨z, rfl⟩ := h
  exact round2_intCast_div z

theorem Is2dp.zero : Is2dp (0 : ℚ) := ⟨0, by norm_num⟩

theorem Is2dp.add (hx : Is2dp x) (hy : Is2dp y) : Is2dp (x + y) := by
  obtain ⟨a, rfl⟩ := hx
  obtain ⟨b, rfl⟩ := hy
  exact ⟨a + b, by push_cast; ring⟩

theorem Is2dp.neg (hx : Is2dp x) : Is2dp (-x) := by
  obtain ⟨a, rfl⟩ := hx
  exact ⟨-a, by push_cast; ring⟩

theorem Is2dp.sub (hx : Is2dp x) (hy : Is2dp y) : Is2dp (x - y) := by
  obtain ⟨a, rfl⟩ := hx
  obtain ⟨b, rfl⟩ := hy
  exact ⟨a - b, by push_cast; ring⟩

theorem Is2dp.max (hx : Is2dp x) (hy : Is2dp y) : Is2dp (max x y) := by
  rcases le_total x y with h | h
  · rw [max_eq_right h]; exact hy
  · rw [max_eq_left h]; exact hx

theorem Is2dp.abs (hx : Is2dp x) : Is2dp |x| := by
  rcases abs_choice x with h | h
  · rw [h]; exact hx
  · rw [h]; exact hx.neg

/-- Two-decimal values that are `1e-9`-close are equal. -/
theorem Is2dp.eq_of_close (hx : Is2dp x) (hy : Is2dp y) (h : |x - y| ≤ eps) :
    x = y := by
  obtain ⟨a, rfl⟩ := hx
  obtain ⟨b, rfl⟩ := hy
  have hd : Is2dp ((a : ℚ) / 100 - (b : ℚ) / 100) := Is2dp.sub ⟨a, rfl⟩ ⟨b, rfl⟩
  obtain ⟨c, hc⟩ := hd
  rw [hc] at h
  have hc0 : c = 0 := by
    by_contra hne
    have h1 : (1 : ℚ) ≤ |(c : ℚ)| := by
      have : (1 : ℤ) ≤ |c| := Int.one_le_abs hne
      exact_mod_cast this
    rw [abs_div, abs_of_nonneg (by norm_num : (0:ℚ) ≤ 100)] at h
    unfold eps at h
    linarith
  rw [hc0] at hc
  push_cast at hc
  have : (a : ℚ) / 100 = (b : ℚ) / 100 := by linarith
  exact this

/-- For a nonnegative two-decimal value, exceeding `1e-9` is the same as being
positive. -/
theorem Is2dp.eps_lt_iff_pos (hx : Is2dp x) : eps < x ↔ 0 < x := by
  constructor
  · intro h
    have : (0 : ℚ) < eps := by norm_num [eps]
    linarith
  · intro h
    obtain ⟨a, rfl⟩ := hx
    have ha : 0 < a := by
      by_contra hle
      push_neg at hle
      have : (a : ℚ) ≤ 0 := by exact_mod_cast hle
      have : (a : ℚ) / 100 ≤ 0 := by linarith
      linarith
    have : (1 : ℚ) ≤ (a : ℚ) := by exact_mod_cast ha
    have : (1 : ℚ) / 100 ≤ (a : ℚ) / 100 := by linarith
    unfold eps
    linarith

theorem Is2dp.abs_le_eps_iff (hx : Is2dp x) : |x| ≤ eps ↔ x = 0 := by
  constructor
  · intro h
    have := Is2dp.eq_of_close hx Is2dp.zero (by simpa using h)
    simpa using this
  · intro h
    rw [h]
    norm_num [eps]

theorem round2_nonneg (h : 0 ≤ x) : 0 ≤ round2 x := by
  have h1 : (0 : ℤ) ≤ ⌊100 * x⌋ := Int.floor_nonneg.mpr (by positivity)
  have h2 : (0 : ℤ) ≤ rhe (100 * x) := le_trans h1 (rhe_ge_floor _)
  unfold round2
  positivity

/-- Applying the compounding multiplier and rounding never decreases a
nonnegative two-decimal balance. -/
theorem le_round2_compound (hx : Is2dp x) (h : 0 ≤ x) :
    x ≤ round2 (x * (6 / 5)) := by
  obtain ⟨z, rfl⟩ := hx
  have hz : (0 : ℤ) ≤ z := by
    by_contra hneg
    push_neg at hneg
    have : (z : ℚ) < 0 := by exact_mod_cast hneg
    have : (z : ℚ) / 100 < 0 := by linarith
    linarith
  have harg : (100 : ℚ) * ((z : ℚ) / 100 * (6 / 5)) = (z : ℚ) * 6 / 5 := by ring
  have hfl : z ≤ ⌊(z : ℚ) * 6 / 5⌋ := by
    rw [Int.le_floor]
    have : (z : ℚ) ≤ (z : ℚ) * 6 / 5 := by
      have : (0 : ℚ) ≤ (z : ℚ) := by exact_mod_cast hz
      linarith
    exact this
  have hr : z ≤ rhe ((z : ℚ) * 6 / 5) := le_trans hfl (rhe_ge_floor _)
  unfold round2
  rw [harg]
  have : (z : ℚ) ≤ (rhe ((z : ℚ) * 6 / 5) : ℚ) := by exact_mod_cast hr
  linarith

theorem round2_zero : round2 (0 : ℚ) = 0 := by
  have := round2_intCast_div 0
  simpa using this

theorem round2_nonpos (h : x ≤ 0) : round2 x ≤ 0 := by
  rcases lt_or_eq_of_le h with hlt | heq
  · have h1 : (100 : ℚ) * x < 0 := by linarith
    have h2 : ⌊(100 : ℚ) * x⌋ < 0 := by
      have := Int.floor_le ((100 : ℚ) * x)
      by_contra hc
      push_neg at hc
      have : (0 : ℚ) ≤ (⌊(100 : ℚ) * x⌋ : ℚ) := by exact_mod_cast hc
      linarith
    have h3 : rhe (100 * x) ≤ ⌊(100 : ℚ) * x⌋ + 1 := rhe_le_floor_add_one _
    have h4 : rhe (100 * x) ≤ 0 := by omega
    unfold round2
    have : ((rhe (100 * x) : ℤ) : ℚ) ≤ 0 := by exact_mod_cast h4
    linarith
  · rw [heq, round2_zero]

/-- Sums of two-decimal values are two-decimal. -/
theorem is2dp_sum {l : List ℚ} (h : ∀ x ∈ l, Is2dp x) : Is2dp l.sum := by
  induction l with
  | nil => simpa using Is2dp.zero
  | cons a t ih =>
    simp only [List.sum_cons]
    exact (h a (by simp)).add (ih fun x hx => h x (by simp [hx]))

/-! ## Bank ledger lemmas (claim C3) -/

theorem bankBalance_concat (l : List BankTx) (e : BankTx) :
    bankBalance (l ++ [e]) = round2 e.after := by
  unfold bankBalance
  rw [List.getLast?_concat]

theorem chainBank_append {l : List BankTx} {acc : ℚ} {e : BankTx}
    (h : chainBank acc l)
    (he : e.after = acc + (l.map BankTx.amount).sum + e.amount) :
    chainBank acc (l ++ [e]) := by
  induction l generalizing acc with
  | nil =>
    simp only [List.nil_append, chainBank]
    refine ⟨?_, trivial⟩
    simpa using he
  | cons b rest ih =>
    obtain ⟨hb, hrest⟩ := h
    simp only [List.cons_append, chainBank]
    refine ⟨hb, ih hrest ?_⟩
    simp only [List.map_cons, List.sum_cons] at he
    rw [he, hb]
    ring

theorem chainBank_getLast {l : List BankTx} {acc : ℚ} {e : BankTx}
    (h : chainBank acc l) (hl : l.getLast? = some e) :
    e.after = acc + (l.map BankTx.amount).sum := by
  induction l generalizing acc with
  | nil => simp at hl
  | cons b rest ih =>
    obtain ⟨hb, hrest⟩ := h
    cases rest with
    | nil =>
      simp only [List.getLast?_singleton, Option.some.injEq] at hl
      subst hl
      simpa using hb
    | cons c rest2 =>
      have hl2 : (c :: rest2).getLast? = some e := by
        simpa [List.getLast?_cons_cons] using hl
      have := ih hrest hl2
      rw [this, hb]
      simp only [List.map_cons, List.sum_cons]
      ring

theorem chainBank_getq {l : List BankTx} {acc : ℚ}
    (h : chainBank acc l) :
    ∀ i e, l.get? i = some e →
      e.after = acc + ((l.take (i + 1)).map BankTx.amount).sum := by
  induction l generalizing acc with
  | nil => intro i e hi; simp at hi
  | cons b rest ih =>
    obtain ⟨hb, hrest⟩ := h
    intro i e hi
    cases i with
    | zero =>
      have : b = e := by simpa using hi
      subst this
      simpa using hb
    | succ j =>
      have hj : rest.get? j = some e := by simpa using hi
      have h2 := ih hrest j e hj
      simp only [List.take_succ_cons, List.map_cons, List.sum_cons]
      rw [h2, hb]
      ring

theorem bankInv_append (l : List BankTx) (ttype : String) (a : ℚ)
    (h : BankInv l) : BankInv (ledgerAppend l ttype a) := by
  obtain ⟨hchain, hvals, hbal⟩ := h
  unfold ledgerAppend
  by_cases hz : |round2 a| ≤ eps
  · rw [if_pos hz]
    exact ⟨hchain, hvals, hbal⟩
  · rw [if_neg hz]
    have ha2 : Is2dp (round2 a) := round2_is2dp a
    have hane : round2 a ≠ 0 := by
      intro h0
      have habs : |(0 : ℚ)| ≤ eps := by norm_num [eps]
      exact hz (h0 ▸ habs)
    have hsum2 : Is2dp (l.map BankTx.amount).sum :=
      is2dp_sum fun x hx => by
        obtain ⟨e, he, rfl⟩ := List.mem_map.mp hx
        exact (hvals e he).1
    have hafter :
        round2 (bankBalance l + round2 a) = (l.map BankTx.amount).sum + round2 a := by
      rw [hbal]
      exact round2_eq_self (hsum2.add ha2)
    refine ⟨?_, ?_, ?_⟩
    · refine chainBank_append hchain ?_
      simp only [hafter]
      ring
    · intro e he
      rcases List.mem_append.mp he with hmem | hmem
      · exact hvals e hmem
      · have : e = ⟨ttype, round2 a, round2 (bankBalance l + round2 a)⟩ := by
          simpa using hmem
        subst this
        exact ⟨ha2, hane, round2_is2dp _⟩
    · rw [bankBalance_concat]
      simp only [List.map_append, List.sum_append, List.map_cons, List.map_nil,
        List.sum_cons, List.sum_nil]
      rw [round2_eq_self (round2_is2dp _), hafter]
      ring

theorem bankInv_foldl (reqs : List (String × ℚ)) :
    ∀ l, BankInv l →
      BankInv (reqs.foldl (fun acc p => ledgerAppend acc p.1 p.2) l) := by
  induction reqs with
  | nil => intro l h; exact h
  | cons r rest ih =>
    intro l h
    exact ih _ (bankInv_append l r.1 r.2 h)

theorem bankInv_mkLedger (reqs : List (String × ℚ)) : BankInv (mkLedger reqs) := by
  refine bankInv_foldl reqs [] ⟨trivial, ?_, ?_⟩
  · intro e he; simp at he
  · simp [bankBalance]

/-- C3: for every sequence of appends to the bank transaction ledger, the
`balance_after` of the Nth persisted row equals the sum of `amount` over rows
`1..N` in insertion order; `get_bank_balance` returns the last-inserted row's
`balance_after` (or `0` when the ledger is empty); and no row whose amount
rounds to zero at two decimals is ever persisted. -/
theorem c3_bank_ledger (reqs : List (String × ℚ)) :
    (∀ i e, (mkLedger reqs).get? i = some e →
      e.after = (((mkLedger reqs).take (i + 1)).map BankTx.amount).sum) ∧
    bankBalance (mkLedger reqs) =
      ((mkLedger reqs).getLast?).elim 0 BankTx.after ∧
    ∀ e ∈ mkLedger reqs, round2 e.amount ≠ 0 := by
  obtain ⟨hchain, hvals, hbal⟩ := bankInv_mkLedger reqs
  refine ⟨?_, ?_, ?_⟩
  · intro i e hi
    have := chainBank_getq hchain i e hi
    simpa using this
  · cases hlast : (mkLedger reqs).getLast? with
    | none =>
      have hnil : mkLedger reqs = [] := List.getLast?_eq_none_iff.mp hlast
      rw [hnil]
      simp [bankBalance]
    | some e =>
      have he := chainBank_getLast hchain hlast
      have hsum2 : Is2dp ((mkLedger reqs).map BankTx.amount).sum :=
        is2dp_sum fun x hx => by
          obtain ⟨b, hb, rfl⟩ := List.mem_map.mp hx
          exact (hvals b hb).1
      simp only [Option.elim]
      rw [hbal, he]
      ring
  · intro e he
    obtain ⟨h2, hne, _⟩ := hvals e he
    rw [round2_eq_self h2]
    exact hne

/-- Witness for C3: a concrete run with a deposit of `5`, an amount `1/250`
(which rounds to zero and is skipped) and a withdrawal of `2`; the second
persisted row's running balance is the sum of the first two amounts. -/
theorem c3_bank_ledger_witness :
    (mkLedger [("d", 5), ("z", 1 / 250), ("w", -2)]).get? 1 =
      some ⟨"w", -2, 3⟩ ∧
    (3 : ℚ) =
      (((mkLedger [("d", 5), ("z", 1 / 250), ("w", -2)]).take 2).map
        BankTx.amount).sum := by
  have h1 : ledgerAppend [] "d" 5 = [⟨"d", 5, 5⟩] := by
    norm_num [ledgerAppend, bankBalance, eps, round2, rhe, Int.fract]
  have h2 : ledgerAppend [⟨"d", 5, 5⟩] "z" (1 / 250) = [⟨"d", 5, 5⟩] := by
    norm_num [ledgerAppend, bankBalance, eps, round2, rhe, Int.fract]
  have h3 : ledgerAppend [⟨"d", 5, 5⟩] "w" (-2) =
      [⟨"d", 5, 5⟩, ⟨"w", -2, 3⟩] := by
    norm_num [ledgerAppend, bankBalance, eps, round2, rhe, Int.fract]
  have hm : mkLedger [("d", 5), ("z", 1 / 250), ("w", -2)] =
      [⟨"d", 5, 5⟩, ⟨"w", -2, 3⟩] := by
    simp only [mkLedger, List.foldl]
    rw [h1, h2, h3]
  have hget : (mkLedger [("d", 5), ("z", 1 / 250), ("w", -2)]).get? 1 =
      some ⟨"w", -2, 3⟩ := by
    rw [hm]
    rfl
  refine ⟨hget, ?_⟩
  have := (c3_bank_ledger [("d", 5), ("z", 1 / 250), ("w", -2)]).1 1 _ hget
  simpa using this

/-! ## Loan balance guard lemmas (claims C6, C10) -/

/-- C6 (amended): `_ensure_repayment_within_loan_balance` raises
`InsufficientLoanBalance` iff the remaining balance is nonpositive and the
*normalised* proposed amount `round2 |proposedAmount|` is positive, or the
normalised amount exceeds the remaining balance by more than `1e-9`; the
remaining balance itself agrees with the spec's unrounded
`max(0, compounded − Σ|repayments|)` within half a cent.  The guard only
reads state (it is a pure predicate in this model). -/
theorem c6_guard_characterization (reps : List RepRow) (la : ℚ) (lid : ℕ)
    (excl : Option ℕ) (a : ℚ) :
    (guardRejects (loanRemaining reps la lid excl) a = true ↔
      (loanRemaining reps la lid excl ≤ 0 ∧ 0 < round2 |a|) ∨
        eps < round2 |a| - loanRemaining reps la lid excl) ∧
    |loanRemaining reps la lid excl - remainingSpec reps la lid excl| ≤ 1 / 200 := by
  constructor
  · unfold guardRejects
    have hmax : max (round2 |a|) 0 = round2 |a| :=
      max_eq_left (round2_nonneg (abs_nonneg a))
    rw [hmax]
    simp only [decide_eq_true_eq]
  · simp only [loanRemaining, remainingSpec]
    rw [max_comm (0 : ℚ)]
    exact le_trans (abs_max_sub_max_le_abs _ _ _) (abs_round2_sub _)

/-- Counterexample for C6 as stated: with a loan of `10` (compounded ceiling
`12`, no repayments) and a proposed amount of `-15`, the code raises (it
normalises to `|-15| = 15 > 12`), while the claim's condition on the raw
proposed amount predicts no raise. -/
theorem c6_guard_counterexample :
    guardRejects (loanRemaining [] 10 1 none) (-15) = true ∧
    ¬ ((loanRemaining [] 10 1 none ≤ 0 ∧ (0 : ℚ) < -15) ∨
        eps < -15 - loanRemaining [] 10 1 none) := by
  have hrem : loanRemaining [] 10 1 none = 12 := by
    norm_num [loanRemaining, initialCompounded, round2, rhe, Int.fract]
  constructor
  · rw [guardRejects, hrem]
    norm_num [round2, rhe, Int.fract, eps]
  · rw [hrem]
    norm_num [eps]

/-- C10 (amended): the compounded ceiling clamps negative principals to zero,
so a loan with negative `loan_amount` has remaining balance `0` and every
proposed repayment whose normalised amount `round2 |a|` is positive is
rejected with `InsufficientLoanBalance`. -/
theorem c10_negative_loan (la : ℚ) (hla : la < 0) (reps : List RepRow)
    (lid : ℕ) (excl : Option ℕ) :
    initialCompounded la = 0 ∧
    loanRemaining reps la lid excl = 0 ∧
    ∀ a, 0 < round2 |a| →
      guardRejects (loanRemaining reps la lid excl) a = true := by
  have hic : initialCompounded la = 0 := by
    unfold initialCompounded
    rw [max_eq_right hla.le]
    rw [show (0 : ℚ) * (6 / 5) = 0 by ring]
    exact round2_zero
  have hpaid : (0 : ℚ) ≤
      ((reps.filter fun r =>
          decide (r.loanId = some lid) && !decide (excl = some r.id)).map
        fun r => |r.amount|).sum := by
    apply List.sum_nonneg
    intro x hx
    obtain ⟨r, _, rfl⟩ := List.mem_map.mp hx
    exact abs_nonneg r.amount
  have hrem : loanRemaining reps la lid excl = 0 := by
    simp only [loanRemaining, hic]
    apply max_eq_right
    apply round2_nonpos
    linarith
  refine ⟨hic, hrem, ?_⟩
  intro a ha
  unfold guardRejects
  rw [hrem]
  have hmax : max (round2 |a|) 0 = round2 |a| :=
    max_eq_left (round2_nonneg (abs_nonneg a))
  rw [hmax]
  simp only [decide_eq_true_eq]
  exact Or.inl ⟨le_refl 0, ha⟩

/-- Witness for C10: a loan of `-50` has compounded ceiling `0`, remaining
balance `0`, and a proposed repayment of `7` is rejected. -/
theorem c10_negative_loan_witness :
    (-50 : ℚ) < 0 ∧ (0 : ℚ) < round2 |(7 : ℚ)| ∧
    initialCompounded (-50) = 0 ∧
    loanRemaining [] (-50) 1 none = 0 ∧
    guardRejects (loanRemaining [] (-50) 1 none) 7 = true :=
  ⟨by norm_num, by norm_num [round2, rhe, Int.fract],
    (c10_negative_loan (-50) (by norm_num) [] 1 none).1,
    (c10_negative_loan (-50) (by norm_num) [] 1 none).2.1,
    (c10_negative_loan (-50) (by norm_num) [] 1 none).2.2 7
      (by norm_num [round2, rhe, Int.fract])⟩

/-- Counterexample for C10 as stated: the proposed amount `1/250 = 0.004` is
positive but rounds to zero at two decimals, so the guard of a negative loan
accepts it rather than rejecting it. -/
theorem c10_counterexample :
    loanRemaining [] (-50) 1 none = 0 ∧ (0 : ℚ) < 1 / 250 ∧
    guardRejects (loanRemaining [] (-50) 1 none) (1 / 250) = false := by
  have hrem : loanRemaining [] (-50) 1 none = 0 := by
    norm_num [loanRemaining, initialCompounded, round2, rhe, Int.fract]
  have habs : |(1 : ℚ) / 250| = 1 / 250 := abs_of_pos (by norm_num)
  have hr2 : round2 |(1 : ℚ) / 250| = 0 := by
    rw [habs]
    norm_num [round2, rhe, Int.fract]
  refine ⟨hrem, by norm_num, ?_⟩
  simp only [guardRejects, hrem, hr2, decide_eq_false_iff_not]
  norm_num [eps]

/-! ## Projection lemmas for the writers -/

theorem recordEvent_cust (s : St) (ty : String) (t : ℤ) (c : ℚ) :
    (recordEvent s ty t c).cust = s.cust := by
  unfold recordEvent
  split <;> rfl

theorem recordEvent_events (s : St) (ty : String) (t : ℤ) (c : ℚ) :
    (recordEvent s ty t c).events = s.events ++
      (if |c| ≤ eps then []
       else [⟨s.nextEid, ty, t, round2 c, round2 (max s.cust.pb 0)⟩]) := by
  unfold recordEvent
  split <;> simp

theorem recordEvent_nextEid (s : St) (ty : String) (t : ℤ) (c : ℚ) :
    (recordEvent s ty t c).nextEid =
      s.nextEid + (if |c| ≤ eps then 0 else 1) := by
  unfold recordEvent
  split <;> simp

theorem recordEvent_bank (s : St) (ty : String) (t : ℤ) (c : ℚ) :
    (recordEvent s ty t c).bank = s.bank := by
  unfold recordEvent
  split <;> rfl

theorem recordEvent_loans (s : St) (ty : String) (t : ℤ) (c : ℚ) :
    (recordEvent s ty t c).loans = s.loans := by
  unfold recordEvent
  split <;> rfl

theorem recordEvent_reps (s : St) (ty : String) (t : ℤ) (c : ℚ) :
    (recordEvent s ty t c).reps = s.reps := by
  unfold recordEvent
  split <;> rfl

theorem recordBank_cust (s : St) (ty : String) (a : ℚ) :
    (recordBank s ty a).cust = s.cust := rfl

theorem recordBank_events (s : St) (ty : String) (a : ℚ) :
    (recordBank s ty a).events = s.events := rfl

theorem recordBank_nextEid (s : St) (ty : String) (a : ℚ) :
    (recordBank s ty a).nextEid = s.nextEid := rfl

theorem recordBank_bank (s : St) (ty : String) (a : ℚ) :
    (recordBank s ty a).bank = ledgerAppend s.bank ty a := rfl

/-! ## Claim C9: repayment creation ignores the sign of the amount -/

theorem guardRejects_abs (r a : ℚ) : guardRejects r |a| = guardRejects r a := by
  unfold guardRejects
  rw [abs_abs]

/-- C9: `create_repayment` called with amount `a` and with amount `|a|`
produces the same guard decision and, on acceptance, the same customer state,
balance events, bank ledger and event counter (the stored repayment row keeps
the raw sign and is the only difference). -/
theorem c9_sign_insensitive (s : St) (rid : ℕ) (lid : Option ℕ) (a : ℚ)
    (now : ℤ) :
    repObs (opCreateRepayment s rid lid a now) =
      repObs (opCreateRepayment s rid lid |a| now) := by
  have hbody : ∀ l : Option ℕ,
      repObs (.ok (createRepaymentBody s rid l a now)) =
        repObs (.ok (createRepaymentBody s rid l |a| now)) := by
    intro l
    simp only [repObs, createRepaymentBody, abs_abs, Option.some.injEq]
    simp only [recordBank_cust, recordBank_events, recordBank_nextEid,
      recordBank_bank, recordEvent_cust, recordEvent_events,
      recordEvent_nextEid, recordEvent_bank]
  cases lid with
  | none =>
    simpa only [opCreateRepayment] using hbody none
  | some l =>
    simp only [opCreateRepayment]
    cases hf : s.loans.find? (fun r => decide (r.1 = l)) with
    | none => rfl
    | some lr =>
      dsimp only
      rw [guardRejects_abs]
      cases hg : guardRejects (loanRemaining s.reps lr.2 l none) a with
      | false =>
        simpa only [Bool.false_eq_true, if_false] using hbody (some l)
      | true => rfl

/-! ## Claim C7: loan-creation scenario -/

/-- Evaluation of `create_loan` of `500` on the fresh customer; shared by
the C7 claim theorem and its counterexample. -/
theorem runCreateLoan500 :
    runFrom init [(0, Op.createLoan 1 500)] =
      ⟨⟨600, 600, some 30⟩,
        [⟨0, "loan_disbursement", 0, 600, 600⟩], 1, [(1, 500)], [],
        [⟨"loan_disbursement", -500, -500⟩]⟩ := by
  have hic : initialCompounded 500 = 600 := by
    norm_num [initialCompounded, round2, rhe, Int.fract]
  have hgrow : applyCompoundGrowthS init 0 = init := by
    norm_num [applyCompoundGrowthS, init]
  have hdelta : applyDeltaS init 600 0 =
      ⟨⟨600, 0, some 30⟩, [], 0, [], [], []⟩ := by
    rw [applyDeltaS, if_neg (by norm_num [eps])]
    rw [hgrow]
    norm_num [init, eps, round2, rhe, Int.fract]
  show opCreateLoan init 1 500 0 = _
  rw [opCreateLoan, hic, hdelta]
  rw [recordEvent, if_neg (by norm_num [eps])]
  norm_num [recordBank, ledgerAppend, bankBalance, eps, round2, rhe, Int.fract]

/-- C7 (amended): creating a loan of `500` (default compounding rate `0.20`)
for a fresh customer with zero balance sets `projected_balance` to `600.00`
and records exactly one `loan_disbursement` event whose `change_amount` is the
full compounded liability `600.00`, while the disbursed principal `500`
surfaces as a bank-ledger outflow of `-500.00`; the compounding schedule
starts 30 days later. -/
theorem c7_create_loan_scenario :
    runFrom init [(0, Op.createLoan 1 500)] =
      ⟨⟨600, 600, some 30⟩,
        [⟨0, "loan_disbursement", 0, 600, 600⟩], 1, [(1, 500)], [],
        [⟨"loan_disbursement", -500, -500⟩]⟩ :=
  runCreateLoan500

/-- Counterexample for C7 as stated: the single `loan_disbursement` event of
the scenario carries `change_amount = 600.00` (the compounded liability), not
`100.00` (the markup). -/
theorem c7_counterexample :
    (runFrom init [(0, Op.createLoan 1 500)]).events.map BEvent.change =
      [600] ∧ (600 : ℚ) ≠ 100 := by
  rw [runCreateLoan500]
  norm_num

/-! ## Claim C8: the auditor's negative-balance check is dead code -/

/-- C8: `run_audit` clamps `projected_balance` with `max(..., 0)` before its
negativity test, so a customer whose stored `projected_balance` is `-5.00`
produces no `customer_balance` issue at all — in particular not the
severity-`error` issue the claim (and the auditor's own message string)
promise. -/
theorem c8_auditor_negative_balance :
    auditCustomerBalanceIssues 0 (-5) [] [] (1 / 100) = [] ∧ (-5 : ℚ) < 0 := by
  constructor
  · norm_num [auditCustomerBalanceIssues, round2, rhe, Int.fract]
  · norm_num

/-! ## Compounding calculator lemmas (claims C4, C5) -/

theorem growthBounds_succ (t0 : ℤ) (k : ℕ) :
    growthBounds t0 (k + 1) = growthBounds t0 k ++ [t0 + 30 * (k : ℤ)] := by
  simp [growthBounds, List.range_succ]

theorem growthFold_zero (a : List BEvent × ℕ × ℚ) (t0 : ℤ) :
    growthFold a t0 0 = a := rfl

theorem growthFold_succ (a : List BEvent × ℕ × ℚ) (t0 : ℤ) (k : ℕ) :
    growthFold a t0 (k + 1) =
      growthStep (growthFold a t0 k) (t0 + 30 * (k : ℤ)) := by
  unfold growthFold
  rw [growthBounds_succ, List.foldl_append]
  rfl

theorem growthStep_p (a : List BEvent × ℕ × ℚ) (tb : ℤ) :
    (growthStep a tb).2.2 = round2 (a.2.2 * (6 / 5)) := by
  unfold growthStep
  split <;> rfl

/-- The projected balance never decreases through the loop and stays a
two-decimal value. -/
theorem growthFold_p (a : List BEvent × ℕ × ℚ) (t0 : ℤ) (k : ℕ)
    (h0 : 0 ≤ a.2.2) (h2 : Is2dp a.2.2) :
    a.2.2 ≤ (growthFold a t0 k).2.2 ∧ Is2dp (growthFold a t0 k).2.2 := by
  induction k with
  | zero => exact ⟨le_refl _, h2⟩
  | succ k ih =>
    obtain ⟨ih1, ih2⟩ := ih
    rw [growthFold_succ, growthStep_p]
    exact ⟨le_trans ih1 (le_round2_compound ih2 (le_trans h0 ih1)),
      round2_is2dp _⟩

/-- The boundary the loop leaves behind lies strictly after `now`. -/
theorem growthCount_now_lt (t now : ℤ) :
    now < t + 30 * (growthCount t now : ℤ) := by
  unfold growthCount
  split
  · rename_i h
    push_cast
    omega
  · rename_i h
    push_cast
    omega

theorem growthCount_of_not_le {t now : ℤ} (h : ¬t ≤ now) :
    growthCount t now = 0 := by
  unfold growthCount
  rw [if_neg h]

/-- Customer-level facts about one `advance`: afterwards the balance is a
nonnegative two-decimal value, the schedule is present iff the balance is
positive, any schedule lies strictly after `now`, and `last_principal` is
untouched. -/
theorem growthS_cust (s : St) (now : ℤ) (h2 : Is2dp s.cust.pb) :
    0 ≤ (applyCompoundGrowthS s now).cust.pb ∧
    Is2dp (applyCompoundGrowthS s now).cust.pb ∧
    ((applyCompoundGrowthS s now).cust.nca = none ↔
      (applyCompoundGrowthS s now).cust.pb = 0) ∧
    (∀ t, (applyCompoundGrowthS s now).cust.nca = some t → now < t) ∧
    (applyCompoundGrowthS s now).cust.lp = s.cust.lp := by
  unfold applyCompoundGrowthS
  by_cases hz : max s.cust.pb 0 ≤ 0
  · rw [if_pos hz]
    refine ⟨le_refl 0, Is2dp.zero, by simp, ?_, rfl⟩
    intro t ht
    simp at ht
  · rw [if_neg hz]
    push_neg at hz
    dsimp only
    obtain ⟨h1, h2'⟩ := growthFold_p (s.events, s.nextEid, max s.cust.pb 0)
      (s.cust.nca.getD (now + 30))
      (growthCount (s.cust.nca.getD (now + 30)) now)
      (le_max_right _ _) (h2.max Is2dp.zero)
    have hpos : 0 < (growthFold (s.events, s.nextEid, max s.cust.pb 0)
        (s.cust.nca.getD (now + 30))
        (growthCount (s.cust.nca.getD (now + 30)) now)).2.2 :=
      lt_of_lt_of_le hz h1
    refine ⟨le_of_lt hpos, h2', ?_, ?_, rfl⟩
    · constructor
      · intro h; simp at h
      · intro h; exact absurd h (ne_of_gt hpos)
    · intro t ht
      have := growthCount_now_lt (s.cust.nca.getD (now + 30)) now
      simp only [Option.some.injEq] at ht
      omega

/-- If the balance is already current at `now` (nonnegative balance, schedule
null iff balance zero, schedule strictly after `now`), `advance` changes
nothing at all. -/
theorem growthS_fix (s : St) (now : ℤ) (h0 : 0 ≤ s.cust.pb)
    (hiff : s.cust.nca = none ↔ s.cust.pb = 0)
    (hgt : ∀ t, s.cust.nca = some t → now < t) :
    applyCompoundGrowthS s now = s := by
  unfold applyCompoundGrowthS
  by_cases hz : max s.cust.pb 0 ≤ 0
  · rw [if_pos hz]
    have hpb : s.cust.pb = 0 := le_antisymm (le_trans (le_max_left _ _) hz) h0
    have hnca : s.cust.nca = none := hiff.mpr hpb
    ext : 1
    · ext
      · exact hpb.symm
      · rfl
      · rw [hnca]
    all_goals rfl
  · rw [if_neg hz]
    push_neg at hz
    have hpb : 0 < s.cust.pb := by
      rcases lt_max_iff.mp hz with h | h
      · exact h
      · exact absurd h (lt_irrefl 0)
    obtain ⟨t, ht⟩ : ∃ t, s.cust.nca = some t := by
      cases hc : s.cust.nca with
      | none => exact absurd (hiff.mp hc) (ne_of_gt hpb)
      | some t => exact ⟨t, rfl⟩
    rw [ht]
    dsimp only [Option.getD_some]
    rw [growthCount_of_not_le (not_le.mpr (hgt t ht)), growthFold_zero]
    ext : 1
    · ext
      · exact max_eq_left h0
      · rfl
      · rw [ht]
        norm_num
    all_goals rfl

/-- C4 (amended): `advance` is idempotent on every customer state whose
projected balance is a two-decimal value — as all states produced by the core
operations are: a second call with the same `now` changes nothing (no new
events, no balance change, no schedule change). -/
theorem c4_advance_idempotent (s : St) (now : ℤ) (h2 : Is2dp s.cust.pb) :
    applyCompoundGrowthS (applyCompoundGrowthS s now) now =
      applyCompoundGrowthS s now := by
  obtain ⟨h0, _, hiff, hgt, _⟩ := growthS_cust s now h2
  exact growthS_fix _ now h0 hiff hgt

/-- Witness for C4: the idempotence theorem applied to a concrete customer
with balance `400` and a schedule one day in the past. -/
theorem c4_advance_idempotent_witness :
    Is2dp ((⟨⟨400, 600, some 0⟩, [], 0, [], [], []⟩ : St).cust.pb) ∧
    applyCompoundGrowthS
        (applyCompoundGrowthS ⟨⟨400, 600, some 0⟩, [], 0, [], [], []⟩ 1) 1 =
      applyCompoundGrowthS ⟨⟨400, 600, some 0⟩, [], 0, [], [], []⟩ 1 :=
  ⟨⟨40000, by norm_num⟩,
    c4_advance_idempotent ⟨⟨400, 600, some 0⟩, [], 0, [], [], []⟩ 1
      ⟨40000, by norm_num⟩⟩

/-- Counterexample for C4 as stated: on the (not two-decimal) state with
`projected_balance = 0.001` and a due schedule, the first `advance` rounds
the balance to `0` but leaves a schedule behind, and the second `advance`
then clears the schedule — the second call is not a no-op. -/
theorem c4_counterexample :
    (applyCompoundGrowthS (⟨⟨1 / 1000, 0, some 0⟩, [], 0, [], [], []⟩ : St)
        0).cust.nca = some 30 ∧
    (applyCompoundGrowthS
        (applyCompoundGrowthS (⟨⟨1 / 1000, 0, some 0⟩, [], 0, [], [], []⟩ : St)
          0) 0).cust.nca = none := by
  have hr : round2 ((1 : ℚ) / 1000 * (6 / 5)) = 0 := by
    norm_num [round2, rhe, Int.fract]
  have h1 : applyCompoundGrowthS
      (⟨⟨1 / 1000, 0, some 0⟩, [], 0, [], [], []⟩ : St) 0 =
      ⟨⟨0, 0, some 30⟩, [], 0, [], [], []⟩ := by
    rw [applyCompoundGrowthS, if_neg (by norm_num)]
    dsimp only [Option.getD_some]
    have hk : growthCount 0 0 = 1 := by norm_num [growthCount]
    rw [hk, show (1 : ℕ) = 0 + 1 from rfl, growthFold_succ, growthFold_zero]
    rw [show max ((1 : ℚ) / 1000) 0 = 1 / 1000 from by norm_num]
    rw [growthStep]
    rw [hr, if_neg (by norm_num [eps])]
    norm_num
  rw [h1]
  refine ⟨rfl, ?_⟩
  rw [applyCompoundGrowthS, if_pos (by norm_num)]

/-- Evaluation of `advance` across exactly one crossed boundary; shared by
the C5 claim theorem and its counterexample. -/
theorem advance_one_period (s : St) (P : ℚ) (t now : ℤ) (hpb : s.cust.pb = P)
    (hP : 0 < P) (h2dp : Is2dp P) (hnca : s.cust.nca = some t) (htl : t ≤ now)
    (hth : now < t + 30) :
    applyCompoundGrowthS s now =
      { s with
        cust := { s.cust with pb := round2 (P * (6 / 5)), nca := some (t + 30) },
        events := s.events ++
          (if round2 (P * (6 / 5)) = P then []
           else
            [⟨s.nextEid, "compound_growth", t, round2 (P * (6 / 5)) - P,
              round2 (P * (6 / 5))⟩]),
        nextEid := s.nextEid + (if round2 (P * (6 / 5)) = P then 0 else 1) } := by
  have hP2 : P ≤ round2 (P * (6 / 5)) := le_round2_compound h2dp hP.le
  have hP2pos : 0 < round2 (P * (6 / 5)) := lt_of_lt_of_le hP hP2
  have hinc2 : Is2dp (round2 (P * (6 / 5)) - P) := (round2_is2dp _).sub h2dp
  have hcond : (eps < round2 (P * (6 / 5)) - P) ↔ ¬round2 (P * (6 / 5)) = P := by
    rw [hinc2.eps_lt_iff_pos]
    constructor
    · intro h heq
      rw [heq] at h
      simp at h
    · intro h
      rcases lt_or_eq_of_le hP2 with hlt | heq
      · linarith
      · exact absurd heq.symm h
  have hmax : max s.cust.pb 0 = P := by rw [hpb]; exact max_eq_left hP.le
  have hk : growthCount t now = 1 := by
    unfold growthCount
    rw [if_pos htl]
    omega
  have hchg : round2 (round2 (P * (6 / 5)) - P) = round2 (P * (6 / 5)) - P :=
    round2_eq_self hinc2
  have hafter : round2 (max (round2 (P * (6 / 5))) 0) = round2 (P * (6 / 5)) := by
    rw [max_eq_left hP2pos.le]
    exact round2_eq_self (round2_is2dp _)
  rw [applyCompoundGrowthS, if_neg (by rw [hmax]; exact not_le.mpr hP), hnca]
  dsimp only [Option.getD_some]
  rw [hk, hmax, show (1 : ℕ) = 0 + 1 from rfl, growthFold_succ, growthFold_zero]
  rw [growthStep]
  norm_num
  by_cases he : round2 (P * (6 / 5)) = P
  · rw [if_neg (fun hlt => (hcond.mp hlt) he)]
    simp [he]
  · rw [if_pos (hcond.mpr he)]
    rw [hchg, hafter]
    simp [he]

theorem pbIter_succ (P : ℚ) (k : ℕ) :
    pbIter P (k + 1) = round2 (pbIter P k * (6 / 5)) := rfl

theorem pbIter_nonneg (P : ℚ) (hP : 0 ≤ P) : ∀ k, 0 ≤ pbIter P k := by
  intro k
  induction k with
  | zero => exact hP
  | succ k ih =>
    rw [pbIter_succ]
    exact round2_nonneg (mul_nonneg ih (by norm_num))

theorem pbIter_is2dp (P : ℚ) (h2 : Is2dp P) : ∀ k, Is2dp (pbIter P k) := by
  intro k
  cases k with
  | zero => exact h2
  | succ k =>
    rw [pbIter_succ]
    exact round2_is2dp _

/-- The source's while-loop fold over `k` boundaries equals the spec's
per-period description: the balance iterates `round2(· * 1.2)`, and the
appended events, with their ids, times, change amounts and balances, are
exactly the per-period events above. -/
theorem growthFold_spec (evs : List BEvent) (nid : ℕ) (t : ℤ) (P : ℚ)
    (hP : 0 ≤ P) :
    ∀ k : ℕ, growthFold (evs, nid, P) t k =
      (evs ++ periodEvents nid t P k, nid + emitCount P k, pbIter P k) := by
  intro k
  induction k with
  | zero =>
    rw [growthFold_zero]
    simp [periodEvents, emitCount, pbIter]
  | succ k ih =>
    rw [growthFold_succ, ih]
    unfold growthStep
    dsimp only
    by_cases hc : eps < round2 (pbIter P k * (6 / 5)) - pbIter P k
    · rw [if_pos hc]
      have hemit : periodEmit P k = true := by
        unfold periodEmit
        rw [decide_eq_true_eq, pbIter_succ]
        exact hc
      have hpe : periodEvents nid t P (k + 1) =
          periodEvents nid t P k ++
            [⟨nid + emitCount P k, "compound_growth", t + 30 * (k : ℤ),
              round2 (pbIter P (k + 1) - pbIter P k), pbIter P (k + 1)⟩] := by
        simp [periodEvents, hemit]
      have hec : emitCount P (k + 1) = emitCount P k + 1 := by
        simp [emitCount, hemit]
      have hafter : round2 (max (round2 (pbIter P k * (6 / 5))) 0) =
          round2 (pbIter P k * (6 / 5)) := by
        rw [max_eq_left (round2_nonneg (mul_nonneg (pbIter_nonneg P hP k)
          (by norm_num)))]
        exact round2_eq_self (round2_is2dp _)
      rw [hpe, hec, pbIter_succ, hafter]
      simp [List.append_assoc, Nat.add_assoc]
    · rw [if_neg hc]
      have hemit : periodEmit P k = false := by
        unfold periodEmit
        rw [decide_eq_false_iff_not, pbIter_succ]
        exact hc
      have hpe : periodEvents nid t P (k + 1) = periodEvents nid t P k := by
        simp [periodEvents, hemit]
      have hec : emitCount P (k + 1) = emitCount P k := by
        simp [emitCount, hemit]
      rw [hpe, hec, pbIter_succ]

/-- C5 (amended): for a customer with `projected_balance = P > 0` and
`next_compound_at = t ≤ now`, `advance` crosses `k = ⌊(now − t)/30⌋ + 1`
boundaries: the balance becomes the `k`-fold iterate of
`b ↦ round2(b * 1.2)` starting at `P`, `next_compound_at` moves to
`t + 30·k` in exact 30-day steps anchored at `t` (the first boundary
strictly after `now`, pinned by `t + 30(k−1) ≤ now < t + 30k`), and one
`compound_growth` event is recorded per crossed boundary, at the boundary's
time, with `balance_after` the post-period balance and `change_amount` the
rounded increment — exactly the post-minus-pre difference whenever `P` is a
two-decimal value (final conjunct), and automatically for every period after
the first — except that periods whose increment is within `1e-9` record no
event; `last_principal` is untouched. -/
theorem c5_compound_periods (s : St) (P : ℚ) (t now : ℤ) (hpb : s.cust.pb = P)
    (hP : 0 < P) (hnca : s.cust.nca = some t) (htl : t ≤ now) :
    (applyCompoundGrowthS s now).cust.pb = pbIter P (growthCount t now) ∧
    (applyCompoundGrowthS s now).cust.nca =
      some (t + 30 * (growthCount t now : ℤ)) ∧
    now < t + 30 * (growthCount t now : ℤ) ∧
    t + 30 * ((growthCount t now : ℤ) - 1) ≤ now ∧
    (applyCompoundGrowthS s now).events =
      s.events ++ periodEvents s.nextEid t P (growthCount t now) ∧
    (applyCompoundGrowthS s now).nextEid =
      s.nextEid + emitCount P (growthCount t now) ∧
    (applyCompoundGrowthS s now).cust.lp = s.cust.lp ∧
    (Is2dp P → ∀ i, round2 (pbIter P (i + 1) - pbIter P i) =
      pbIter P (i + 1) - pbIter P i) := by
  have hmax : max s.cust.pb 0 = P := by
    rw [hpb]
    exact max_eq_left hP.le
  have hnle : ¬max s.cust.pb 0 ≤ 0 := by
    rw [hmax]
    exact not_le.mpr hP
  unfold applyCompoundGrowthS
  rw [if_neg hnle, hnca]
  dsimp only [Option.getD_some]
  rw [hmax, growthFold_spec s.events s.nextEid t P hP.le (growthCount t now)]
  refine ⟨rfl, rfl, growthCount_now_lt t now, ?_, rfl, rfl, rfl, ?_⟩
  · unfold growthCount
    rw [if_pos htl]
    omega
  · intro h2 i
    exact round2_eq_self ((pbIter_is2dp P h2 (i + 1)).sub (pbIter_is2dp P h2 i))

/-- Witness for C5: balance `400`, boundary at `t = 0`, `now = 1` — the
hypotheses hold and the per-period description applies. -/
theorem c5_compound_periods_witness :
    ((0 : ℚ) < 400 ∧ (0 : ℤ) ≤ 1) ∧
    ((applyCompoundGrowthS (⟨⟨400, 600, some 0⟩, [], 7, [], [], []⟩ : St)
          1).cust.pb = pbIter 400 (growthCount 0 1) ∧
      (applyCompoundGrowthS (⟨⟨400, 600, some 0⟩, [], 7, [], [], []⟩ : St)
          1).cust.nca = some (0 + 30 * (growthCount 0 1 : ℤ)) ∧
      (1 : ℤ) < 0 + 30 * (growthCount 0 1 : ℤ) ∧
      (0 : ℤ) + 30 * ((growthCount 0 1 : ℤ) - 1) ≤ 1 ∧
      (applyCompoundGrowthS (⟨⟨400, 600, some 0⟩, [], 7, [], [], []⟩ : St)
          1).events = [] ++ periodEvents 7 0 400 (growthCount 0 1) ∧
      (applyCompoundGrowthS (⟨⟨400, 600, some 0⟩, [], 7, [], [], []⟩ : St)
          1).nextEid = 7 + emitCount 400 (growthCount 0 1) ∧
      (applyCompoundGrowthS (⟨⟨400, 600, some 0⟩, [], 7, [], [], []⟩ : St)
          1).cust.lp = 600 ∧
      (Is2dp 400 → ∀ i, round2 (pbIter 400 (i + 1) - pbIter 400 i) =
        pbIter 400 (i + 1) - pbIter 400 i)) :=
  ⟨⟨by norm_num, by norm_num⟩,
    c5_compound_periods ⟨⟨400, 600, some 0⟩, [], 7, [], [], []⟩ 400 0 1 rfl
      (by norm_num) rfl (by norm_num)⟩

/-- Counterexample for C5 as stated: a balance of `0.01` with one crossed
boundary grows by `round2(0.012) − 0.01 = 0`, so no `compound_growth` event
is emitted even though a whole period was crossed — "one event per period"
fails. -/
theorem c5_counterexample :
    (applyCompoundGrowthS (⟨⟨1 / 100, 0, some 0⟩, [], 0, [], [], []⟩ : St)
        1).events = [] ∧
    (0 : ℚ) < 1 / 100 ∧
    (applyCompoundGrowthS (⟨⟨1 / 100, 0, some 0⟩, [], 0, [], [], []⟩ : St)
        1).cust.nca = some 30 := by
  have hr : round2 ((1 : ℚ) / 100 * (6 / 5)) = 1 / 100 := by
    norm_num [round2, rhe, Int.fract]
  have h := advance_one_period (⟨⟨1 / 100, 0, some 0⟩, [], 0, [], [], []⟩ : St)
    (1 / 100) 0 1 rfl (by norm_num) ⟨1, by norm_num⟩ rfl (by norm_num)
    (by norm_num)
  rw [h, if_pos hr]
  norm_num

/-! ## Claim C2: the balance/schedule invariant -/

/-- Customer-level facts about `_adjust_projected_balance`: the written-back
balance is exactly the rounded clamped sum (the `> 1e-9` write-back filter is
vacuous on two-decimal states), and the invariant fields are preserved. -/
theorem deltaS_cust (s : St) (δ : ℚ) (now : ℤ) (h0 : 0 ≤ s.cust.pb)
    (h2 : Is2dp s.cust.pb) (hiff : s.cust.nca = none ↔ s.cust.pb = 0) :
    0 ≤ (applyDeltaS s δ now).cust.pb ∧ Is2dp (applyDeltaS s δ now).cust.pb ∧
    ((applyDeltaS s δ now).cust.nca = none ↔
      (applyDeltaS s δ now).cust.pb = 0) ∧
    (applyDeltaS s δ now).cust.lp = s.cust.lp := by
  unfold applyDeltaS
  by_cases hδ : |δ| ≤ eps
  · rw [if_pos hδ]
    exact ⟨h0, h2, hiff, rfl⟩
  · rw [if_neg hδ]
    obtain ⟨h10, h12, h1iff, hgt, hlp⟩ := growthS_cust s now h2
    dsimp only
    set s1 := applyCompoundGrowthS s now with hs1
    set p1 := round2 (max (max s1.cust.pb 0 + δ) 0) with hp1
    have hp10 : 0 ≤ p1 := round2_nonneg (le_max_right _ _)
    have hp12 : Is2dp p1 := round2_is2dp _
    have hpb2 : (if eps < |p1 - s1.cust.pb| then p1 else s1.cust.pb) = p1 := by
      by_cases hc : eps < |p1 - s1.cust.pb|
      · rw [if_pos hc]
      · rw [if_neg hc]
        push_neg at hc
        exact (Is2dp.eq_of_close hp12 h12 hc).symm
    rw [hpb2]
    by_cases hle : p1 ≤ 0
    · rw [if_pos hle]
      have hz : p1 = 0 := le_antisymm hle hp10
      exact ⟨hp10, hp12, by simp [hz], hlp⟩
    · rw [if_neg hle]
      push_neg at hle
      refine ⟨hp10, hp12, ?_, hlp⟩
      constructor
      · intro h; simp at h
      · intro h; exact absurd h (ne_of_gt hle)

theorem inv2_growthS (s : St) (now : ℤ) (h : Inv2 s.cust) :
    Inv2 (applyCompoundGrowthS s now).cust := by
  obtain ⟨_, h2, _⟩ := h
  obtain ⟨a, b, c, _, _⟩ := growthS_cust s now h2
  exact ⟨a, b, c⟩

theorem inv2_deltaS (s : St) (δ : ℚ) (now : ℤ) (h : Inv2 s.cust) :
    Inv2 (applyDeltaS s δ now).cust := by
  obtain ⟨h0, h2, hiff⟩ := h
  obtain ⟨a, b, c, _⟩ := deltaS_cust s δ now h0 h2 hiff
  exact ⟨a, b, c⟩

/-- The adjust-update-record pattern shared by `update_loan`,
`update_repayment` and the deletions preserves the customer invariant. -/
theorem inv2_branch (s : St) (δ : ℚ) (ty : String) (t now : ℤ)
    (h : Inv2 s.cust) :
    Inv2 ((if eps < |δ| then
      recordEvent
        { applyDeltaS s δ now with
          cust := { (applyDeltaS s δ now).cust with
            lp := (applyDeltaS s δ now).cust.lp + δ } } ty t δ
    else s)).cust := by
  by_cases hc : eps < |δ|
  · rw [if_pos hc, recordEvent_cust]
    have hd := inv2_deltaS s δ now h
    exact ⟨hd.1, hd.2.1, hd.2.2⟩
  · rw [if_neg hc]
    exact h

/-- The adjust-record pattern of `update_customer_balance` preserves the
customer invariant. -/
theorem inv2_branch2 (s : St) (δ : ℚ) (ty : String) (t now : ℤ)
    (h : Inv2 s.cust) :
    Inv2 ((if eps < |δ| then recordEvent (applyDeltaS s δ now) ty t δ
      else s)).cust := by
  by_cases hc : eps < |δ|
  · rw [if_pos hc, recordEvent_cust]
    exact inv2_deltaS s δ now h
  · rw [if_neg hc]
    exact h

theorem inv2_opCreateLoan (s : St) (lid : ℕ) (a : ℚ) (now : ℤ)
    (h : Inv2 s.cust) : Inv2 (opCreateLoan s lid a now).cust := by
  have hd := inv2_deltaS s (initialCompounded a) now h
  simp only [opCreateLoan, recordBank_cust, recordEvent_cust]
  exact ⟨hd.1, hd.2.1, hd.2.2⟩

theorem inv2_createRepaymentBody (s : St) (rid : ℕ) (lid : Option ℕ) (a : ℚ)
    (now : ℤ) (h : Inv2 s.cust) :
    Inv2 (createRepaymentBody s rid lid a now).cust := by
  have hd := inv2_deltaS (applyCompoundGrowthS s now) (-|a|) now
    (inv2_growthS s now h)
  simp only [createRepaymentBody, recordBank_cust, recordEvent_cust]
  exact ⟨hd.1, hd.2.1, hd.2.2⟩

theorem inv2_opUpdateLoan (s : St) (lid : ℕ) (na : ℚ) (now : ℤ)
    (h : Inv2 s.cust) : Inv2 (opUpdateLoan s lid na now).cust := by
  cases hf : s.loans.find? (fun r => decide (r.1 = lid)) with
  | none => simpa only [opUpdateLoan, hf] using h
  | some lr =>
    simp only [opUpdateLoan, hf]
    have h1 := inv2_branch s (initialCompounded na - initialCompounded lr.2)
      "loan_adjustment" now now h
    by_cases hcash : eps < |na - lr.2|
    · simp only [if_pos hcash, recordBank_cust]
      exact ⟨h1.1, h1.2.1, h1.2.2⟩
    · simp only [if_neg hcash]
      exact ⟨h1.1, h1.2.1, h1.2.2⟩

theorem inv2_opDeleteLoan (s : St) (lid : ℕ) (now : ℤ) (h : Inv2 s.cust) :
    Inv2 (opDeleteLoan s lid now).cust := by
  cases hf : s.loans.find? (fun r => decide (r.1 = lid)) with
  | none => simpa only [opDeleteLoan, hf] using h
  | some lr =>
    have hd := inv2_deltaS s (-(initialCompounded lr.2)) now h
    simp only [opDeleteLoan, hf, recordBank_cust, recordEvent_cust]
    exact ⟨hd.1, hd.2.1, hd.2.2⟩

theorem inv2_updateRepaymentBody (s : St) (rep : RepRow) (na : ℚ) (now : ℤ)
    (h : Inv2 s.cust) : Inv2 (updateRepaymentBody s rep na now).cust := by
  simp only [updateRepaymentBody]
  have h1 := inv2_branch s (|rep.amount| - na) "repayment_adjustment" now now h
  by_cases hcash : eps < |na - rep.amount|
  · simp only [if_pos hcash, recordBank_cust]
    exact ⟨h1.1, h1.2.1, h1.2.2⟩
  · simp only [if_neg hcash]
    exact ⟨h1.1, h1.2.1, h1.2.2⟩

theorem inv2_opDeleteRepayment (s : St) (rid : ℕ) (now : ℤ) (h : Inv2 s.cust) :
    Inv2 (opDeleteRepayment s rid now).cust := by
  cases hf : s.reps.find? (fun r => decide (r.id = rid)) with
  | none => simpa only [opDeleteRepayment, hf] using h
  | some rep =>
    have hd := inv2_deltaS s |rep.amount| now h
    simp only [opDeleteRepayment, hf, recordBank_cust, recordEvent_cust]
    exact ⟨hd.1, hd.2.1, hd.2.2⟩

theorem inv2_opUpdateBalance (s : St) (target : Option ℚ) (adj : ℚ)
    (loanRef : Option ℕ) (now : ℤ) (h : Inv2 s.cust) :
    Inv2 (opUpdateBalance s target adj none loanRef now).cust := by
  unfold opUpdateBalance
  dsimp only
  cases loanRef with
  | none =>
    dsimp only
    by_cases hrl : (target.isSome || decide (eps < |adj|)) = true
    · rw [if_pos hrl]
      exact h
    · rw [if_neg hrl]
      cases target with
      | some tv =>
        exact inv2_branch2 s (max tv 0 - s.cust.pb) "manual_override" now now h
      | none => exact inv2_branch2 s adj "manual_adjust" now now h
  | some l =>
    dsimp only
    cases hf : s.loans.find? (fun r => decide (r.1 = l)) with
    | none => exact h
    | some lr =>
      dsimp only
      by_cases hg : ((target.isSome || decide (eps < |adj|)) &&
          decide (loanRemaining s.reps lr.2 l none ≤ 0)) = true
      · rw [if_pos hg]
        exact h
      · rw [if_neg hg]
        cases target with
        | some tv =>
          exact inv2_branch2 s (max tv 0 - s.cust.pb) "manual_override" now now h
        | none => exact inv2_branch2 s adj "manual_adjust" now now h

/-- Inversion: a successful `create_repayment` ran its body. -/
theorem opCreateRepayment_ok {s : St} {rid : ℕ} {lid : Option ℕ} {a : ℚ}
    {now : ℤ} {s' : St}
    (hr : opCreateRepayment s rid lid a now = .ok s') :
    s' = createRepaymentBody s rid lid a now := by
  unfold opCreateRepayment at hr
  cases lid with
  | none =>
    simp only [Except.ok.injEq] at hr
    exact hr.symm
  | some l =>
    dsimp only at hr
    cases hf : s.loans.find? (fun r => decide (r.1 = l)) with
    | none =>
      rw [hf] at hr
      cases hr
    | some lr =>
      rw [hf] at hr
      dsimp only at hr
      by_cases hg : guardRejects (loanRemaining s.reps lr.2 l none) a = true
      · rw [if_pos hg] at hr
        cases hr
      · rw [if_neg hg] at hr
        simp only [Except.ok.injEq] at hr
        exact hr.symm

/-- Inversion: a successful `update_repayment` ran its body on the found row
with the absolute value of the requested amount. -/
theorem opUpdateRepayment_ok {s : St} {rid : ℕ} {na : ℚ} {now : ℤ} {s' : St}
    (hr : opUpdateRepayment s rid na now = .ok s') :
    ∃ rep, s' = updateRepaymentBody s rep |na| now := by
  unfold opUpdateRepayment at hr
  cases hfr : s.reps.find? (fun r => decide (r.id = rid)) with
  | none =>
    rw [hfr] at hr
    cases hr
  | some rep =>
    rw [hfr] at hr
    dsimp only at hr
    cases hl : rep.loanId with
    | none =>
      rw [hl] at hr
      simp only [Except.ok.injEq] at hr
      exact ⟨rep, hr.symm⟩
    | some l =>
      rw [hl] at hr
      dsimp only at hr
      cases hf : s.loans.find? (fun r => decide (r.1 = l)) with
      | none =>
        rw [hf] at hr
        cases hr
      | some lr =>
        rw [hf] at hr
        dsimp only at hr
        by_cases hg : (!iscloseQ |na| |rep.amount| &&
            guardRejects (loanRemaining s.reps lr.2 l (some rid)) |na|) = true
        · rw [if_pos hg] at hr
          cases hr
        · rw [if_neg hg] at hr
          simp only [Except.ok.injEq] at hr
          exact ⟨rep, hr.symm⟩

/-- Every core operation that leaves `next_compound_at` to the calculator
preserves the customer invariant. -/
theorem inv2_step (s : St) (now : ℤ) (op : Op)
    (hop : opNoOverride op = true) (h : Inv2 s.cust) :
    Inv2 (step s now op).cust := by
  cases op with
  | createLoan lid a => exact inv2_opCreateLoan s lid a now h
  | updateLoan lid a => exact inv2_opUpdateLoan s lid a now h
  | deleteLoan lid => exact inv2_opDeleteLoan s lid now h
  | createRepayment rid lid a =>
    simp only [step]
    cases hr : opCreateRepayment s rid lid a now with
    | error e => exact h
    | ok s' =>
      rw [opCreateRepayment_ok hr]
      exact inv2_createRepaymentBody s rid lid a now h
  | updateRepayment rid a =>
    simp only [step]
    cases hr : opUpdateRepayment s rid a now with
    | error e => exact h
    | ok s' =>
      obtain ⟨rep, hrep⟩ := opUpdateRepayment_ok hr
      rw [hrep]
      exact inv2_updateRepaymentBody s rep |a| now h
  | deleteRepayment rid => exact inv2_opDeleteRepayment s rid now h
  | updateBalance target adj nextOv loanRef =>
    have hno : nextOv = none := by
      cases nextOv with
      | none => rfl
      | some t => simp [opNoOverride] at hop
    subst hno
    exact inv2_opUpdateBalance s target adj loanRef now h
  | advance => exact inv2_growthS s now h

theorem inv2_runFrom (tr : List (ℤ × Op)) :
    ∀ s, traceNoOverride tr = true → Inv2 s.cust →
      Inv2 (runFrom s tr).cust := by
  induction tr with
  | nil => intro s _ h; exact h
  | cons p rest ih =>
    intro s htr h
    obtain ⟨t, op⟩ := p
    simp only [traceNoOverride, List.all_cons, Bool.and_eq_true] at htr
    exact ih _ (by simpa [traceNoOverride] using htr.2) (inv2_step s t op htr.1 h)

theorem inv2_init : Inv2 init.cust :=
  ⟨le_refl 0, Is2dp.zero, iff_of_true rfl rfl⟩

/-- C2 (amended): for every customer state reachable through the core
operations — loan and repayment create/update/delete, manual balance
adjustment or override, and `advance` — *excluding* the direct
`next_compound_at` payload override of `update_customer_balance`,
`projected_balance` is nonnegative and `next_compound_at` is null iff
`projected_balance` is zero. -/
theorem c2_balance_schedule_invariant (tr : List (ℤ × Op))
    (hno : traceNoOverride tr = true) :
    0 ≤ (runFrom init tr).cust.pb ∧
    ((runFrom init tr).cust.nca = none ↔ (runFrom init tr).cust.pb = 0) := by
  have h := inv2_runFrom tr init hno inv2_init
  exact ⟨h.1, h.2.2⟩

/-- Witness for C2: a trace that creates a loan of `500` and repays `200`. -/
theorem c2_balance_schedule_invariant_witness :
    traceNoOverride
        [((0 : ℤ), Op.createLoan 1 500),
          ((1 : ℤ), Op.createRepayment 1 (some 1) 200)] = true ∧
    (0 ≤ (runFrom init
        [((0 : ℤ), Op.createLoan 1 500),
          ((1 : ℤ), Op.createRepayment 1 (some 1) 200)]).cust.pb ∧
      ((runFrom init
          [((0 : ℤ), Op.createLoan 1 500),
            ((1 : ℤ), Op.createRepayment 1 (some 1) 200)]).cust.nca = none ↔
        (runFrom init
          [((0 : ℤ), Op.createLoan 1 500),
            ((1 : ℤ), Op.createRepayment 1 (some 1) 200)]).cust.pb = 0)) :=
  ⟨rfl, c2_balance_schedule_invariant _ rfl⟩

/-- Counterexample for C2 as stated: `update_customer_balance` writes an
explicit `next_compound_at` payload value directly to the customer, so one
such call on a fresh customer yields a reachable state with
`projected_balance = 0` but `next_compound_at = some 5`, breaking the claimed
iff. -/
theorem c2_counterexample :
    (runFrom init [((0 : ℤ), Op.updateBalance none 0 (some 5) none)]).cust.pb
        = 0 ∧
    (runFrom init [((0 : ℤ), Op.updateBalance none 0 (some 5) none)]).cust.nca
        = some 5 := by
  have hstep : runFrom init [((0 : ℤ), Op.updateBalance none 0 (some 5) none)] =
      { init with cust := { init.cust with nca := some 5 } } := by
    show opUpdateBalance init none 0 (some 5) none 0 = _
    unfold opUpdateBalance
    norm_num [eps]
  rw [hstep]
  exact ⟨rfl, rfl⟩

/-! ## Timeline invariant (claim C1) -/

/-- The last element of a concatenation with a singleton. -/
theorem afterLastD_concat (d : ℚ) (l : List BEvent) (e : BEvent) :
    afterLastD d (l ++ [e]) = e.after := by
  unfold afterLastD
  rw [List.getLast?_concat]
  rfl

/-- Peeling the head of `afterLastD`. -/
theorem afterLastD_cons (d : ℚ) (x : BEvent) (rest : List BEvent) :
    afterLastD d (x :: rest) = afterLastD x.after rest := by
  cases rest with
  | nil => rfl
  | cons y t =>
    unfold afterLastD
    rw [List.getLast?_cons_cons]
    cases hg : (y :: t).getLast? with
    | none => simp at hg
    | some a => rfl

/-- An element found by `getLast?` is a member. -/
theorem mem_of_getLast_opt :
    ∀ {l : List BEvent} {a : BEvent}, l.getLast? = some a → a ∈ l := by
  intro l
  induction l with
  | nil => intro a h; cases h
  | cons x rest ih =>
    intro a h
    cases rest with
    | nil =>
      simp only [List.getLast?_singleton, Option.some.injEq] at h
      rw [h]
      exact List.mem_singleton_self a
    | cons y t =>
      rw [List.getLast?_cons_cons] at h
      exact List.mem_cons_of_mem x (ih h)

/-- Extending a generative chain by one event produced from its final
balance. -/
theorem genChainFrom_concat :
    ∀ (l : List BEvent) (b : ℚ) {e : BEvent} (δ : ℚ),
      GenChainFrom b l → e.change = round2 δ →
      e.after = round2 (max (afterLastD b l + δ) 0) →
      GenChainFrom b (l ++ [e]) := by
  intro l
  induction l with
  | nil =>
    intro b e δ _ hc ha
    exact ⟨⟨δ, hc, by simpa [afterLastD] using ha⟩, trivial⟩
  | cons x rest ih =>
    intro b e δ h hc ha
    obtain ⟨hx, hrest⟩ := h
    rw [afterLastD_cons] at ha
    exact ⟨hx, ih _ δ hrest hc ha⟩

/-- Extending a `Chain'` by one element related to the current last one. -/
theorem chain_concat {R : BEvent → BEvent → Prop} {l : List BEvent}
    {e : BEvent} (h : l.Chain' R)
    (hl : ∀ x, l.getLast? = some x → R x e) :
    (l ++ [e]).Chain' R := by
  rw [List.chain'_append]
  refine ⟨h, List.chain'_singleton e, ?_⟩
  intro x hx y hy
  simp only [List.head?_cons, Option.mem_def, Option.some.injEq] at hy
  rw [← hy]
  exact hl x hx

/-- `Good` is monotone in the time of the last operation. -/
theorem Good.mono_time {s : St} {n m : ℤ} (h : Good s n) (hle : n ≤ m) :
    Good s m :=
  { h with timesLe := fun e he => le_trans (h.timesLe e he) hle }

/-- `Good` only looks at the balance, the schedule, the events and the event
counter: states agreeing there are interchangeable. -/
theorem good_congr {s s' : St} (n : ℤ) (hpb : s'.cust.pb = s.cust.pb)
    (hnca : s'.cust.nca = s.cust.nca) (hev : s'.events = s.events)
    (hid : s'.nextEid = s.nextEid) (h : Good s n) : Good s' n := by
  refine ⟨?_, ?_, ?_, ?_, ?_, ?_, ?_, ?_, ?_⟩
  · rw [hpb]; exact h.pb0
  · rw [hpb]; exact h.pb2
  · rw [hnca, hpb]; exact h.ncaIff
  · rw [hnca, hev]; exact h.ncaBound
  · rw [hev]; exact h.timesLe
  · rw [hev]; exact h.pairMono
  · rw [hev, hid]; exact h.idsLt
  · rw [hev, hpb]; exact h.lastPb
  · rw [hev]; exact h.chain

/-- Variant of `good_congr` taking the invariant first, for forward use. -/
theorem good_congr2 {s : St} (n : ℤ) (h : Good s n) {s' : St}
    (hpb : s'.cust.pb = s.cust.pb) (hnca : s'.cust.nca = s.cust.nca)
    (hev : s'.events = s.events) (hid : s'.nextEid = s.nextEid) : Good s' n :=
  good_congr n hpb hnca hev hid h

/-- The `(event_time, id)` pairwise monotonicity gives the sort-key check. -/
theorem sortedKeysB_of_chain :
    ∀ l : List BEvent,
      l.Chain' (fun a b => a.time ≤ b.time ∧ a.id < b.id) →
      sortedKeysB l = true := by
  intro l
  induction l with
  | nil => intro _; rfl
  | cons a rest ih =>
    cases rest with
    | nil => intro _; rfl
    | cons b rest2 =>
      intro h
      rw [List.chain'_cons] at h
      obtain ⟨⟨ht, hid⟩, hrest⟩ := h
      simp only [sortedKeysB, Bool.and_eq_true, decide_eq_true_eq]
      refine ⟨?_, ih hrest⟩
      rcases lt_or_eq_of_le ht with h1 | h1
      · exact Or.inl h1
      · exact Or.inr ⟨h1, hid⟩

/-- A generative chain passes the clamped replay check within `0.01`: the
stored rounded `change_amount` differs from the raw delta by at most `0.005`,
and rounding the clamped sum moves it by at most another `0.005`. -/
theorem chainClampedB_of_gen :
    ∀ (l : List BEvent) (b : ℚ),
      GenChainFrom b l → chainClampedFromB b l = true := by
  intro l
  induction l with
  | nil => intro b _; rfl
  | cons e rest ih =>
    intro b h
    obtain ⟨⟨δ, hc, ha⟩, hrest⟩ := h
    simp only [chainClampedFromB, Bool.and_eq_true, decide_eq_true_eq]
    refine ⟨?_, ih _ hrest⟩
    rw [hc, ha]
    have h1 : |round2 (max (b + δ) 0) - max (b + δ) 0| ≤ 1 / 200 :=
      abs_round2_sub _
    have h2 : |max (b + δ) 0 - max (b + round2 δ) 0| ≤
        |(b + δ) - (b + round2 δ)| := abs_max_sub_max_le_abs _ _ _
    have h3 : (b + δ) - (b + round2 δ) = δ - round2 δ := by ring
    have h4 : |δ - round2 δ| ≤ 1 / 200 := by
      rw [abs_sub_comm]
      exact abs_round2_sub δ
    have h5 : |max (b + δ) 0 - max (b + round2 δ) 0| ≤ 1 / 200 := by
      rw [h3] at h2
      exact le_trans h2 h4
    calc |round2 (max (b + δ) 0) - max (b + round2 δ) 0|
        ≤ |round2 (max (b + δ) 0) - max (b + δ) 0| +
            |max (b + δ) 0 - max (b + round2 δ) 0| := abs_sub_le _ _ _
      _ ≤ 1 / 200 + 1 / 200 := add_le_add h1 h5
      _ = 1 / 100 := by norm_num

/-- The compounding loop preserves the timeline invariant: the projected
balance stays a nonnegative two-decimal value, every emitted event extends the
generative chain and the sort order, event times stay below the next boundary
(and below `now` when every visited boundary is), and ids stay below the
counter. -/
theorem growthFold_good (a : List BEvent × ℕ × ℚ) (t0 now : ℤ) :
    ∀ k : ℕ,
      0 ≤ a.2.2 → Is2dp a.2.2 →
      afterLastD 0 a.1 = a.2.2 →
      GenChainFrom 0 a.1 →
      (∀ e ∈ a.1, e.time < t0) →
      (∀ e ∈ a.1, e.time ≤ now) →
      (∀ e ∈ a.1, e.id < a.2.1) →
      a.1.Chain' (fun x y => x.time ≤ y.time ∧ x.id < y.id) →
      (∀ i : ℕ, i < k → t0 + 30 * (i : ℤ) ≤ now) →
      0 ≤ (growthFold a t0 k).2.2 ∧
      Is2dp (growthFold a t0 k).2.2 ∧
      afterLastD 0 (growthFold a t0 k).1 = (growthFold a t0 k).2.2 ∧
      GenChainFrom 0 (growthFold a t0 k).1 ∧
      (∀ e ∈ (growthFold a t0 k).1, e.time < t0 + 30 * (k : ℤ)) ∧
      (∀ e ∈ (growthFold a t0 k).1, e.time ≤ now) ∧
      (∀ e ∈ (growthFold a t0 k).1, e.id < (growthFold a t0 k).2.1) ∧
      (growthFold a t0 k).1.Chain' (fun x y => x.time ≤ y.time ∧ x.id < y.id) := by
  intro k
  induction k with
  | zero =>
    intro h0 h2 hlast hchain htlt htle hids hmono _
    rw [growthFold_zero]
    refine ⟨h0, h2, hlast, hchain, ?_, htle, hids, hmono⟩
    intro e he
    have := htlt e he
    omega
  | succ k ih =>
    intro h0 h2 hlast hchain htlt htle hids hmono hk
    have hk' : ∀ i : ℕ, i < k → t0 + 30 * (i : ℤ) ≤ now := fun i hi =>
      hk i (Nat.lt_succ_of_lt hi)
    obtain ⟨ih0, ih2, ihlast, ihchain, ihtlt, ihtle, ihids, ihmono⟩ :=
      ih h0 h2 hlast hchain htlt htle hids hmono hk'
    rw [growthFold_succ]
    set r := growthFold a t0 k with hrdef
    have hp20 : 0 ≤ round2 (r.2.2 * (6 / 5)) :=
      round2_nonneg (mul_nonneg ih0 (by norm_num))
    have hp22 : Is2dp (round2 (r.2.2 * (6 / 5))) := round2_is2dp _
    have hple : r.2.2 ≤ round2 (r.2.2 * (6 / 5)) := le_round2_compound ih2 ih0
    unfold growthStep
    by_cases hinc : eps < round2 (r.2.2 * (6 / 5)) - r.2.2
    · rw [if_pos hinc]
      refine ⟨hp20, hp22, ?_, ?_, ?_, ?_, ?_, ?_⟩
      · show afterLastD 0 (r.1 ++ [_]) = _
        rw [afterLastD_concat]
        show round2 (max (round2 (r.2.2 * (6 / 5))) 0) = _
        rw [max_eq_left hp20, round2_eq_self hp22]
      · show GenChainFrom 0 (r.1 ++ [_])
        refine genChainFrom_concat r.1 0 (round2 (r.2.2 * (6 / 5)) - r.2.2)
          ihchain rfl ?_
        show round2 (max (round2 (r.2.2 * (6 / 5))) 0) =
          round2 (max (afterLastD 0 r.1 + (round2 (r.2.2 * (6 / 5)) - r.2.2)) 0)
        rw [ihlast]
        have harg : r.2.2 + (round2 (r.2.2 * (6 / 5)) - r.2.2) =
            round2 (r.2.2 * (6 / 5)) := by ring
        rw [harg]
      · intro f hf
        rw [List.mem_append] at hf
        rcases hf with hf | hf
        · have := ihtlt f hf
          omega
        · rw [List.mem_singleton] at hf
          subst hf
          show t0 + 30 * (k : ℤ) < t0 + 30 * ((k : ℤ) + 1)
          omega
      · intro f hf
        rw [List.mem_append] at hf
        rcases hf with hf | hf
        · exact ihtle f hf
        · rw [List.mem_singleton] at hf
          subst hf
          exact hk k (Nat.lt_succ_self k)
      · intro f hf
        rw [List.mem_append] at hf
        rcases hf with hf | hf
        · exact Nat.lt_succ_of_lt (ihids f hf)
        · rw [List.mem_singleton] at hf
          subst hf
          exact Nat.lt_succ_self _
      · refine chain_concat ihmono ?_
        intro x hx
        have hxm : x ∈ r.1 := mem_of_getLast_opt hx
        exact ⟨le_of_lt (ihtlt x hxm), ihids x hxm⟩
    · rw [if_neg hinc]
      have heq : round2 (r.2.2 * (6 / 5)) = r.2.2 := by
        have hd2 : Is2dp (round2 (r.2.2 * (6 / 5)) - r.2.2) :=
          (round2_is2dp _).sub ih2
        have hge : 0 ≤ round2 (r.2.2 * (6 / 5)) - r.2.2 := sub_nonneg.mpr hple
        have h1 : ¬0 < round2 (r.2.2 * (6 / 5)) - r.2.2 := fun hpos =>
          hinc (hd2.eps_lt_iff_pos.mpr hpos)
        push_neg at h1
        linarith
      rw [heq]
      refine ⟨ih0, ih2, ihlast, ihchain, ?_, ihtle, ihids, ihmono⟩
      intro f hf
      have := ihtlt f hf
      omega

/-- `_apply_compound_growth` preserves the timeline invariant and leaves any
schedule strictly after `now`. -/
theorem good_growthS (s : St) (n now : ℤ) (hg : Good s n) (hn : n ≤ now) :
    Good (applyCompoundGrowthS s now) now ∧
    ∀ t, (applyCompoundGrowthS s now).cust.nca = some t → now < t := by
  unfold applyCompoundGrowthS
  by_cases hz : max s.cust.pb 0 ≤ 0
  · rw [if_pos hz]
    have hpb : s.cust.pb = 0 := le_antisymm (le_trans (le_max_left _ _) hz) hg.pb0
    refine ⟨⟨le_refl 0, Is2dp.zero, by simp, ?_, ?_, hg.pairMono, hg.idsLt, ?_,
      hg.chain⟩, ?_⟩
    · intro t ht
      simp at ht
    · exact fun e he => le_trans (hg.timesLe e he) hn
    · show afterLastD 0 s.events = 0
      rw [hg.lastPb]
      exact hpb
    · intro t ht
      simp at ht
  · rw [if_neg hz]
    push_neg at hz
    have hpb : 0 < s.cust.pb := by
      rcases lt_max_iff.mp hz with h | h
      · exact h
      · exact absurd h (lt_irrefl 0)
    obtain ⟨t0, ht0⟩ : ∃ t0, s.cust.nca = some t0 := by
      cases hc : s.cust.nca with
      | none => exact absurd (hg.ncaIff.mp hc) (ne_of_gt hpb)
      | some t => exact ⟨t, rfl⟩
    rw [ht0]
    dsimp only [Option.getD_some]
    have hbk : ∀ i : ℕ, i < growthCount t0 now → t0 + 30 * (i : ℤ) ≤ now := by
      intro i hi
      unfold growthCount at hi
      split at hi
      · rename_i hle
        omega
      · omega
    have hmax0 : (0 : ℚ) ≤ max s.cust.pb 0 := le_max_right _ _
    have hmax2 : Is2dp (max s.cust.pb 0) := hg.pb2.max Is2dp.zero
    have hlast : afterLastD 0 s.events = max s.cust.pb 0 := by
      rw [max_eq_left hg.pb0]
      exact hg.lastPb
    obtain ⟨g0, g2, glast, gchain, gtlt, gtle, gids, gmono⟩ :=
      growthFold_good (s.events, s.nextEid, max s.cust.pb 0) t0 now
        (growthCount t0 now) hmax0 hmax2 hlast hg.chain (hg.ncaBound t0 ht0)
        (fun e he => le_trans (hg.timesLe e he) hn) hg.idsLt hg.pairMono hbk
    have hmono' := growthFold_p (s.events, s.nextEid, max s.cust.pb 0) t0
      (growthCount t0 now) hmax0 hmax2
    have hpos : 0 < (growthFold (s.events, s.nextEid, max s.cust.pb 0) t0
        (growthCount t0 now)).2.2 := lt_of_lt_of_le hz hmono'.1
    refine ⟨⟨g0, g2, ?_, ?_, gtle, gmono, gids, glast, gchain⟩, ?_⟩
    · constructor
      · intro h
        simp at h
      · intro h
        exact absurd h (ne_of_gt hpos)
    · intro t ht e he
      simp only [Option.some.injEq] at ht
      have := gtlt e he
      omega
    · intro t ht
      simp only [Option.some.injEq] at ht
      have := growthCount_now_lt t0 now
      omega

/-- The event-facing effect of `_adjust_projected_balance` outside the
tolerance window: the events and the counter are those of the growth pass, the
balance is the rounded clamped sum, and the schedule is nulled exactly when
that sum is nonpositive. -/
theorem deltaS_core (s : St) (δ : ℚ) (now : ℤ) (hδ : ¬|δ| ≤ eps)
    (h2 : Is2dp s.cust.pb) :
    (applyDeltaS s δ now).events = (applyCompoundGrowthS s now).events ∧
    (applyDeltaS s δ now).nextEid = (applyCompoundGrowthS s now).nextEid ∧
    (applyDeltaS s δ now).cust.pb =
      round2 (max ((applyCompoundGrowthS s now).cust.pb + δ) 0) ∧
    (applyDeltaS s δ now).cust.nca =
      (if round2 (max ((applyCompoundGrowthS s now).cust.pb + δ) 0) ≤ 0 then
        none
      else some ((applyCompoundGrowthS s now).cust.nca.getD (now + 30))) := by
  obtain ⟨h10, h12, _, _, _⟩ := growthS_cust s now h2
  unfold applyDeltaS
  rw [if_neg hδ]
  dsimp only
  set s1 := applyCompoundGrowthS s now with hs1
  rw [max_eq_left h10]
  set p1 := round2 (max (s1.cust.pb + δ) 0) with hp1
  have hp10 : 0 ≤ p1 := round2_nonneg (le_max_right _ _)
  have hp12 : Is2dp p1 := round2_is2dp _
  have hpb2 : (if eps < |p1 - s1.cust.pb| then p1 else s1.cust.pb) = p1 := by
    by_cases hc : eps < |p1 - s1.cust.pb|
    · rw [if_pos hc]
    · rw [if_neg hc]
      push_neg at hc
      exact (Is2dp.eq_of_close hp12 h12 hc).symm
  rw [hpb2]
  by_cases hle : p1 ≤ 0
  · rw [if_pos hle, if_pos hle]
    exact ⟨rfl, rfl, rfl, rfl⟩
  · rw [if_neg hle, if_neg hle]
    exact ⟨rfl, rfl, rfl, rfl⟩

/-- The adjust-then-record pattern shared by every balance-changing operation
preserves the timeline invariant; `y` is the adjusted state, possibly with
`last_principal` or row-store changes that the invariant ignores. -/
theorem good_AR_gen (s : St) (δ : ℚ) (ty : String) (n now : ℤ) (y : St)
    (hg : Good s n) (hn : n ≤ now)
    (hpb : y.cust.pb = (applyDeltaS s δ now).cust.pb)
    (hnca : y.cust.nca = (applyDeltaS s δ now).cust.nca)
    (hev : y.events = (applyDeltaS s δ now).events)
    (hid : y.nextEid = (applyDeltaS s δ now).nextEid) :
    Good (recordEvent y ty now δ) now := by
  by_cases hδ : |δ| ≤ eps
  · have hds : applyDeltaS s δ now = s := by
      unfold applyDeltaS
      rw [if_pos hδ]
    rw [hds] at hpb hnca hev hid
    unfold recordEvent
    rw [if_pos hδ]
    exact good_congr now hpb hnca hev hid (hg.mono_time hn)
  · obtain ⟨hg1, hpost⟩ := good_growthS s n now hg hn
    obtain ⟨hev1, hid1, hpb1, hnca1⟩ := deltaS_core s δ now hδ hg.pb2
    set s1 := applyCompoundGrowthS s now with hs1
    set p1 := round2 (max (s1.cust.pb + δ) 0) with hp1
    have hp10 : 0 ≤ p1 := round2_nonneg (le_max_right _ _)
    have hp12 : Is2dp p1 := round2_is2dp _
    rw [hev1] at hev
    rw [hid1] at hid
    rw [hpb1] at hpb
    rw [hnca1] at hnca
    unfold recordEvent
    rw [if_neg hδ]
    have hafter : round2 (max y.cust.pb 0) = p1 := by
      rw [hpb, max_eq_left hp10, round2_eq_self hp12]
    refine ⟨?_, ?_, ?_, ?_, ?_, ?_, ?_, ?_, ?_⟩
    · show 0 ≤ y.cust.pb
      rw [hpb]
      exact hp10
    · show Is2dp y.cust.pb
      rw [hpb]
      exact hp12
    · show y.cust.nca = none ↔ y.cust.pb = 0
      rw [hnca, hpb]
      by_cases hle : p1 ≤ 0
      · have hz1 : p1 = 0 := le_antisymm hle hp10
        simp [hle, hz1]
      · rw [if_neg hle]
        push_neg at hle
        constructor
        · intro h
          simp at h
        · intro h
          exact absurd h (ne_of_gt hle)
    · intro t ht f hf
      show f.time < t
      have hnt : now < t := by
        by_cases hle : p1 ≤ 0
        · rw [hnca, if_pos hle] at ht
          cases ht
        · rw [hnca, if_neg hle] at ht
          simp only [Option.some.injEq] at ht
          cases hc : s1.cust.nca with
          | none =>
            rw [hc] at ht
            simp only [Option.getD_none] at ht
            omega
          | some u =>
            rw [hc] at ht
            simp only [Option.getD_some] at ht
            have := hpost u hc
            omega
      rw [List.mem_append] at hf
      rcases hf with hf | hf
      · rw [hev] at hf
        exact lt_of_le_of_lt (hg1.timesLe f hf) hnt
      · rw [List.mem_singleton] at hf
        subst hf
        exact hnt
    · intro f hf
      rw [List.mem_append] at hf
      rcases hf with hf | hf
      · rw [hev] at hf
        exact hg1.timesLe f hf
      · rw [List.mem_singleton] at hf
        subst hf
        exact le_refl now
    · refine chain_concat ?_ ?_
      · show y.events.Chain' _
        rw [hev]
        exact hg1.pairMono
      · intro x hx
        rw [hev] at hx
        have hxm : x ∈ s1.events := mem_of_getLast_opt hx
        refine ⟨hg1.timesLe x hxm, ?_⟩
        show x.id < y.nextEid
        rw [hid]
        exact hg1.idsLt x hxm
    · intro f hf
      show f.id < y.nextEid + 1
      rw [List.mem_append] at hf
      rcases hf with hf | hf
      · rw [hev] at hf
        have h1 := hg1.idsLt f hf
        rw [hid]
        omega
      · rw [List.mem_singleton] at hf
        subst hf
        exact Nat.lt_succ_self _
    · show afterLastD 0 (y.events ++ [_]) = y.cust.pb
      rw [afterLastD_concat]
      show round2 (max y.cust.pb 0) = y.cust.pb
      rw [hafter, hpb]
    · show GenChainFrom 0 (y.events ++ [_])
      refine genChainFrom_concat y.events 0 δ ?_ rfl ?_
      · rw [hev]
        exact hg1.chain
      · show round2 (max y.cust.pb 0) = round2 (max (afterLastD 0 y.events + δ) 0)
        rw [hafter, hev, hg1.lastPb]

/-- The adjust-update-record branch shared by `update_loan` and
`update_repayment` preserves the timeline invariant. -/
theorem good_branch (s : St) (δ : ℚ) (ty : String) (n now : ℤ)
    (hg : Good s n) (hn : n ≤ now) :
    Good ((if eps < |δ| then
      recordEvent
        { applyDeltaS s δ now with
          cust := { (applyDeltaS s δ now).cust with
            lp := (applyDeltaS s δ now).cust.lp + δ } } ty now δ
    else s)) now := by
  by_cases hc : eps < |δ|
  · rw [if_pos hc]
    exact good_AR_gen s δ ty n now _ hg hn rfl rfl rfl rfl
  · rw [if_neg hc]
    exact hg.mono_time hn

/-- The adjust-record branch of `update_customer_balance` preserves the
timeline invariant. -/
theorem good_branch2 (s : St) (δ : ℚ) (ty : String) (n now : ℤ)
    (hg : Good s n) (hn : n ≤ now) :
    Good ((if eps < |δ| then recordEvent (applyDeltaS s δ now) ty now δ
      else s)) now := by
  by_cases hc : eps < |δ|
  · rw [if_pos hc]
    exact good_AR_gen s δ ty n now _ hg hn rfl rfl rfl rfl
  · rw [if_neg hc]
    exact hg.mono_time hn

theorem good_opCreateLoan (s : St) (lid : ℕ) (a : ℚ) (now n : ℤ)
    (hg : Good s n) (hn : n ≤ now) : Good (opCreateLoan s lid a now) now := by
  have h1 := good_AR_gen s (initialCompounded a) "loan_disbursement" n now
    { applyDeltaS s (initialCompounded a) now with
      cust := { (applyDeltaS s (initialCompounded a) now).cust with
        lp := (applyDeltaS s (initialCompounded a) now).cust.lp +
          initialCompounded a },
      loans := (applyDeltaS s (initialCompounded a) now).loans ++ [(lid, a)] }
    hg hn rfl rfl rfl rfl
  exact good_congr2 now h1 rfl rfl rfl rfl

theorem good_createRepaymentBody (s : St) (rid : ℕ) (lid : Option ℕ) (a : ℚ)
    (now n : ℤ) (hg : Good s n) (hn : n ≤ now) :
    Good (createRepaymentBody s rid lid a now) now := by
  obtain ⟨hg1, _⟩ := good_growthS s n now hg hn
  have h1 := good_AR_gen (applyCompoundGrowthS s now) (-|a|) "repayment" now now
    { applyDeltaS (applyCompoundGrowthS s now) (-|a|) now with
      cust := { (applyDeltaS (applyCompoundGrowthS s now) (-|a|) now).cust with
        lp := (applyDeltaS (applyCompoundGrowthS s now) (-|a|) now).cust.lp +
          -|a| },
      reps := (applyDeltaS (applyCompoundGrowthS s now) (-|a|) now).reps ++
        [⟨rid, lid, a⟩] }
    hg1 (le_refl now) rfl rfl rfl rfl
  exact good_congr2 now h1 rfl rfl rfl rfl

theorem good_opUpdateLoan (s : St) (lid : ℕ) (na : ℚ) (now n : ℤ)
    (hg : Good s n) (hn : n ≤ now) : Good (opUpdateLoan s lid na now) now := by
  cases hf : s.loans.find? (fun r => decide (r.1 = lid)) with
  | none =>
    simp only [opUpdateLoan, hf]
    exact hg.mono_time hn
  | some lr =>
    simp only [opUpdateLoan, hf]
    have h1 := good_branch s (initialCompounded na - initialCompounded lr.2)
      "loan_adjustment" n now hg hn
    by_cases hcash : eps < |na - lr.2|
    · simp only [if_pos hcash]
      exact good_congr2 now h1 rfl rfl rfl rfl
    · simp only [if_neg hcash]
      exact good_congr2 now h1 rfl rfl rfl rfl

theorem good_opDeleteLoan (s : St) (lid : ℕ) (now n : ℤ)
    (hg : Good s n) (hn : n ≤ now) : Good (opDeleteLoan s lid now) now := by
  cases hf : s.loans.find? (fun r => decide (r.1 = lid)) with
  | none =>
    simp only [opDeleteLoan, hf]
    exact hg.mono_time hn
  | some lr =>
    simp only [opDeleteLoan, hf]
    have h1 := good_AR_gen s (-(initialCompounded lr.2)) "loan_writeoff" n now
      { applyDeltaS s (-(initialCompounded lr.2)) now with
        cust := { (applyDeltaS s (-(initialCompounded lr.2)) now).cust with
          lp := (applyDeltaS s (-(initialCompounded lr.2)) now).cust.lp +
            -(initialCompounded lr.2) } }
      hg hn rfl rfl rfl rfl
    exact good_congr2 now h1 rfl rfl rfl rfl

theorem good_updateRepaymentBody (s : St) (rep : RepRow) (na : ℚ) (now n : ℤ)
    (hg : Good s n) (hn : n ≤ now) :
    Good (updateRepaymentBody s rep na now) now := by
  simp only [updateRepaymentBody]
  have h1 := good_branch s (|rep.amount| - na) "repayment_adjustment" n now hg hn
  by_cases hcash : eps < |na - rep.amount|
  · simp only [if_pos hcash]
    exact good_congr2 now h1 rfl rfl rfl rfl
  · simp only [if_neg hcash]
    exact good_congr2 now h1 rfl rfl rfl rfl

theorem good_opDeleteRepayment (s : St) (rid : ℕ) (now n : ℤ)
    (hg : Good s n) (hn : n ≤ now) : Good (opDeleteRepayment s rid now) now := by
  cases hf : s.reps.find? (fun r => decide (r.id = rid)) with
  | none =>
    simp only [opDeleteRepayment, hf]
    exact hg.mono_time hn
  | some rep =>
    simp only [opDeleteRepayment, hf]
    have h1 := good_AR_gen s |rep.amount| "repayment_reversal" n now
      { applyDeltaS s |rep.amount| now with
        cust := { (applyDeltaS s |rep.amount| now).cust with
          lp := (applyDeltaS s |rep.amount| now).cust.lp + |rep.amount| } }
      hg hn rfl rfl rfl rfl
    exact good_congr2 now h1 rfl rfl rfl rfl

theorem good_opUpdateBalance (s : St) (target : Option ℚ) (adj : ℚ)
    (loanRef : Option ℕ) (now n : ℤ) (hg : Good s n) (hn : n ≤ now) :
    Good (opUpdateBalance s target adj none loanRef now) now := by
  unfold opUpdateBalance
  dsimp only
  cases loanRef with
  | none =>
    dsimp only
    by_cases hrl : (target.isSome || decide (eps < |adj|)) = true
    · rw [if_pos hrl]
      exact hg.mono_time hn
    · rw [if_neg hrl]
      cases target with
      | some tv =>
        exact good_branch2 s (max tv 0 - s.cust.pb) "manual_override" n now hg hn
      | none => exact good_branch2 s adj "manual_adjust" n now hg hn
  | some l =>
    dsimp only
    cases hf : s.loans.find? (fun r => decide (r.1 = l)) with
    | none => exact hg.mono_time hn
    | some lr =>
      dsimp only
      by_cases hgd : ((target.isSome || decide (eps < |adj|)) &&
          decide (loanRemaining s.reps lr.2 l none ≤ 0)) = true
      · rw [if_pos hgd]
        exact hg.mono_time hn
      · rw [if_neg hgd]
        cases target with
        | some tv =>
          exact good_branch2 s (max tv 0 - s.cust.pb) "manual_override" n now hg hn
        | none => exact good_branch2 s adj "manual_adjust" n now hg hn

/-- Every core operation executed at a time `now` not before the previous
operation, without the `next_compound_at` override, preserves the timeline
invariant. -/
theorem good_step (s : St) (now n : ℤ) (op : Op) (hop : opNoOverride op = true)
    (hg : Good s n) (hn : n ≤ now) : Good (step s now op) now := by
  cases op with
  | createLoan lid a => exact good_opCreateLoan s lid a now n hg hn
  | updateLoan lid a => exact good_opUpdateLoan s lid a now n hg hn
  | deleteLoan lid => exact good_opDeleteLoan s lid now n hg hn
  | createRepayment rid lid a =>
    simp only [step]
    cases hr : opCreateRepayment s rid lid a now with
    | error e => exact hg.mono_time hn
    | ok s' =>
      rw [opCreateRepayment_ok hr]
      exact good_createRepaymentBody s rid lid a now n hg hn
  | updateRepayment rid a =>
    simp only [step]
    cases hr : opUpdateRepayment s rid a now with
    | error e => exact hg.mono_time hn
    | ok s' =>
      obtain ⟨rep, hrep⟩ := opUpdateRepayment_ok hr
      rw [hrep]
      exact good_updateRepaymentBody s rep |a| now n hg hn
  | deleteRepayment rid => exact good_opDeleteRepayment s rid now n hg hn
  | updateBalance target adj nextOv loanRef =>
    have hno : nextOv = none := by
      cases nextOv with
      | none => rfl
      | some t => simp [opNoOverride] at hop
    subst hno
    exact good_opUpdateBalance s target adj loanRef now n hg hn
  | advance => exact (good_growthS s n now hg hn).1

/-- A well-formed trace carries the timeline invariant from any good starting
state to the final state. -/
theorem good_runFrom (tr : List (ℤ × Op)) :
    ∀ (s : St) (n : ℤ), traceWF n tr = true → Good s n →
      ∃ m, Good (runFrom s tr) m := by
  induction tr with
  | nil =>
    intro s n _ h
    exact ⟨n, h⟩
  | cons p rest ih =>
    intro s n htr h
    obtain ⟨t, op⟩ := p
    simp only [traceWF, Bool.and_eq_true, decide_eq_true_eq] at htr
    obtain ⟨⟨hnt, hop⟩, hrest⟩ := htr
    exact ih (step s t op) t hrest (good_step s t n op hop h hnt)

/-- The fresh customer state satisfies the timeline invariant. -/
theorem good_init (n : ℤ) : Good init n :=
  ⟨le_refl 0, Is2dp.zero, iff_of_true rfl rfl,
    fun _ ht => Option.noConfusion ht,
    fun e he => absurd he (List.not_mem_nil e),
    List.chain'_nil,
    fun e he => absurd he (List.not_mem_nil e),
    rfl, trivial⟩

/-- C1 (amended): after any well-formed sequence of core operations —
operation times never decreasing, loan and repayment dates equal to the
operation times (no backdating), and no direct `next_compound_at` override —
the customer's balance events are stored already sorted by `(event_time, id)`
ascending, replaying them with clamping at zero allowed at *every* event
(`b_i = max(b_{i-1} + c_i, 0)`, genesis included) reproduces each
`balance_after` within `0.01`, and the last event's `balance_after` equals the
customer's `projected_balance` within `0.01`.  Clamping must be allowed at
every event, not only at genesis: see the counterexample. -/
theorem c1_timeline_replay (tr : List (ℤ × Op)) (n0 : ℤ)
    (hwf : traceWF n0 tr = true) :
    sortedKeysB (runFrom init tr).events = true ∧
    chainClampedFromB 0 (runFrom init tr).events = true ∧
    ∀ e, (runFrom init tr).events.getLast? = some e →
      |e.after - (runFrom init tr).cust.pb| ≤ 1 / 100 := by
  obtain ⟨m, hm⟩ := good_runFrom tr init n0 hwf (good_init n0)
  refine ⟨sortedKeysB_of_chain _ hm.pairMono,
    chainClampedB_of_gen _ 0 hm.chain, ?_⟩
  intro e he
  have h1 : afterLastD 0 (runFrom init tr).events = e.after := by
    unfold afterLastD
    rw [he]
    rfl
  have h2 : e.after = (runFrom init tr).cust.pb := by
    rw [← hm.lastPb, h1]
  rw [h2, sub_self, abs_zero]
  norm_num

/-- Witness for C1: the single-loan trace of the C7 scenario is well-formed
and satisfies the replay property. -/
theorem c1_timeline_replay_witness :
    traceWF 0 [((0 : ℤ), Op.createLoan 1 500)] = true ∧
    (sortedKeysB (runFrom init [((0 : ℤ), Op.createLoan 1 500)]).events =
        true ∧
      chainClampedFromB 0
          (runFrom init [((0 : ℤ), Op.createLoan 1 500)]).events = true ∧
      ∀ e, (runFrom init
            [((0 : ℤ), Op.createLoan 1 500)]).events.getLast? = some e →
        |e.after - (runFrom init
            [((0 : ℤ), Op.createLoan 1 500)]).cust.pb| ≤ 1 / 100) :=
  ⟨by decide, c1_timeline_replay [((0 : ℤ), Op.createLoan 1 500)] 0 (by decide)⟩

/-- Counterexample for C1 as stated: a loan of `100` followed by an *unlinked*
repayment of `500` (no `loan_id`, so no guard applies) is a well-formed trace,
but the repayment event hits the zero clamp mid-timeline: its `balance_after`
is `0` while the previous balance plus its `change_amount` is
`120 − 500 = −380`, so the strict replay — clamping at genesis only — fails by
`380`. -/
theorem c1_counterexample :
    traceWF 0 [((0 : ℤ), Op.createLoan 1 100),
        ((0 : ℤ), Op.createRepayment 1 none 500)] = true ∧
    chainStrictB (runFrom init
        [((0 : ℤ), Op.createLoan 1 100),
          ((0 : ℤ), Op.createRepayment 1 none 500)]).events = false := by
  constructor
  · decide
  · have hic : initialCompounded 100 = 120 := by
      norm_num [initialCompounded, round2, rhe, Int.fract]
    have hgrow0 : applyCompoundGrowthS init 0 = init := by
      norm_num [applyCompoundGrowthS, init]
    have hdelta1 : applyDeltaS init 120 0 =
        ⟨⟨120, 0, some 30⟩, [], 0, [], [], []⟩ := by
      rw [applyDeltaS, if_neg (by norm_num [eps])]
      rw [hgrow0]
      norm_num [init, eps, round2, rhe, Int.fract]
    have hs1 : opCreateLoan init 1 100 0 = (⟨⟨120, 120, some 30⟩, [⟨0, "loan_disbursement", 0, 120, 120⟩], 1,
        [(1, 100)], [], [⟨"loan_disbursement", -100, -100⟩]⟩ : St) := by
      rw [opCreateLoan, hic, hdelta1]
      rw [recordEvent, if_neg (by norm_num [eps])]
      norm_num [recordBank, ledgerAppend, bankBalance, eps, round2, rhe,
        Int.fract]
    have hgrow1 : applyCompoundGrowthS (⟨⟨120, 120, some 30⟩, [⟨0, "loan_disbursement", 0, 120, 120⟩], 1,
        [(1, 100)], [], [⟨"loan_disbursement", -100, -100⟩]⟩ : St) 0 = (⟨⟨120, 120, some 30⟩, [⟨0, "loan_disbursement", 0, 120, 120⟩], 1,
        [(1, 100)], [], [⟨"loan_disbursement", -100, -100⟩]⟩ : St) := by
      apply growthS_fix
      · norm_num
      · constructor
        · intro h
          simp at h
        · intro h
          norm_num at h
      · intro t ht
        simp only [Option.some.injEq] at ht
        omega
    have hdelta2 : applyDeltaS (⟨⟨120, 120, some 30⟩, [⟨0, "loan_disbursement", 0, 120, 120⟩], 1,
        [(1, 100)], [], [⟨"loan_disbursement", -100, -100⟩]⟩ : St) (-500) 0 =
        ⟨⟨0, 120, none⟩, [⟨0, "loan_disbursement", 0, 120, 120⟩], 1,
          [(1, 100)], [], [⟨"loan_disbursement", -100, -100⟩]⟩ := by
      rw [applyDeltaS, if_neg (by norm_num [eps])]
      rw [hgrow1]
      norm_num [eps, round2, rhe, Int.fract]
    have habs : -|(500 : ℚ)| = -500 := by norm_num
    have hbody : createRepaymentBody (⟨⟨120, 120, some 30⟩, [⟨0, "loan_disbursement", 0, 120, 120⟩], 1,
        [(1, 100)], [], [⟨"loan_disbursement", -100, -100⟩]⟩ : St) 1 none 500 0 = (⟨⟨0, -380, none⟩,
        [⟨0, "loan_disbursement", 0, 120, 120⟩, ⟨1, "repayment", 0, -500, 0⟩],
        2, [(1, 100)], [⟨1, none, 500⟩],
        [⟨"loan_disbursement", -100, -100⟩, ⟨"repayment_receipt", 500, 400⟩]⟩ : St) := by
      rw [createRepaymentBody, habs, hgrow1, hdelta2]
      rw [recordEvent, if_neg (by norm_num [eps])]
      norm_num [recordBank, ledgerAppend, bankBalance, eps, round2, rhe,
        Int.fract]
    have hrun : runFrom init
        [((0 : ℤ), Op.createLoan 1 100),
          ((0 : ℤ), Op.createRepayment 1 none 500)] = (⟨⟨0, -380, none⟩,
        [⟨0, "loan_disbursement", 0, 120, 120⟩, ⟨1, "repayment", 0, -500, 0⟩],
        2, [(1, 100)], [⟨1, none, 500⟩],
        [⟨"loan_disbursement", -100, -100⟩, ⟨"repayment_receipt", 500, 400⟩]⟩ : St) := by
      show step (step init 0 (Op.createLoan 1 100)) 0
        (Op.createRepayment 1 none 500) = _
      rw [show step init 0 (Op.createLoan 1 100) = opCreateLoan init 1 100 0
        from rfl, hs1]
      show createRepaymentBody (⟨⟨120, 120, some 30⟩, [⟨0, "loan_disbursement", 0, 120, 120⟩], 1,
        [(1, 100)], [], [⟨"loan_disbursement", -100, -100⟩]⟩ : St) 1 none 500 0 = _
      exact hbody
    rw [hrun]
    have hfalse : decide (|(0 : ℚ) - (120 + -500)| ≤ 1 / 100) = false := by
      rw [decide_eq_false_iff_not]
      norm_num
    simp only [chainStrictB, chainStrictRestB]
    dsimp only
    rw [hfalse]
    simp

end RecordTools
